import Mathlib

/-!
Verification of `evtpdl_diff.py`, a tool comparing two EvtGen PDL files.

Python floats are modelled as rational numbers (`ℚ`): the program only
parses decimal literals, compares values with `math.isclose` and formats
them for display, so the idealised real-valued semantics is used; `inf`,
`nan` and rounding of binary floating point are outside the model.
Python integers are `ℤ`, strings are `String`, fallible code returns
`Except String`.
-/

/-- A field value of a `Particle` as Python sees it at runtime:
a string, an int, or a float (modelled as `ℚ`). -/
inductive Val where
  | s (v : String)
  | i (v : ℤ)
  | f (v : ℚ)
deriving DecidableEq

/-- The `Particle` namedtuple from `evtpdl_diff.py`:
`["name", "id", "mass", "width", "max_dM", "charge", "spin", "lifetime",
"pythiaId", "line"]` with types
`[str, int, float, float, float, int, int, float, int, int]`. -/
structure Particle where
  name : String
  id : ℤ
  mass : ℚ
  width : ℚ
  max_dM : ℚ
  charge : ℤ
  spin : ℤ
  lifetime : ℚ
  pythiaId : ℤ
  line : ℤ
deriving DecidableEq

/-- `Particle._fields`: the tuple of field names, in declaration order. -/
def fieldNamesAll : List String :=
  ["name", "id", "mass", "width", "max_dM", "charge", "spin", "lifetime", "pythiaId", "line"]

/-- Tuple iteration over a `Particle` (`self` used as a sequence): the ten
field values in declaration order, each wrapped in its runtime type. -/
def Particle.valuesAll (p : Particle) : List Val :=
  [.s p.name, .i p.id, .f p.mass, .f p.width, .f p.max_dM,
   .i p.charge, .i p.spin, .f p.lifetime, .i p.pythiaId, .i p.line]

/-- `math.isclose(a, b, rel_tol=rel_tol, abs_tol=abs_tol)`.
CPython raises `ValueError` when either tolerance is negative, and otherwise
returns `|a-b| <= max(rel_tol*max(|a|,|b|), abs_tol)`.  (The float
fast path `a == b` and the `inf`/`nan` special cases are equivalent to this
formula over `ℚ`.) -/
def isclose (a b rel_tol abs_tol : ℚ) : Except String Bool :=
  if rel_tol < 0 ∨ abs_tol < 0 then .error "tolerances must be non-negative"
  else .ok (decide (|a - b| ≤ max (rel_tol * max |a| |b|) abs_tol))

/-- The local `isclose(a, b)` helper inside `Particle.diff`:
`if isinstance(a, float): return math.isclose(a, b, rel_tol=tolerance,
abs_tol=tolerance)` else `a == b`.  (Between two `Particle`s the paired
values always have the same runtime type, so the non-float branch is plain
equality.) -/
def valIsClose (tolerance : ℚ) (a b : Val) : Except String Bool :=
  match a, b with
  | .f a, .f b => isclose a b tolerance tolerance
  | a, b => .ok (a == b)

/-- The dict comprehension in `Particle.diff`: keep, in field order, every
`(f, a, b)` whose values are not close; the first failing `isclose` call
(negative tolerance) propagates as the function's exception. -/
def diffPairs (tolerance : ℚ) :
    List (String × Val × Val) → Except String (List (String × Val × Val))
  | [] => .ok []
  | (f, a, b) :: rest => do
    let c ← valIsClose tolerance a b
    let r ← diffPairs tolerance rest
    pure (if c then r else (f, a, b) :: r)

/-- `zip(self._fields[:-1], self, other)`: field names without the trailing
`line`, paired positionally with both particles' values (`zip` truncates to
the shortest input, i.e. to the nine named fields). -/
def Particle.namedPairs (p q : Particle) : List (String × Val × Val) :=
  List.zip fieldNamesAll.dropLast (List.zip p.valuesAll q.valuesAll)

/-- Default value of the `tolerance` parameter of `Particle.diff`
(and of the `--tolerance` command line option): `1e-5`. -/
def DEFAULT_TOLERANCE : ℚ := 1 / 100000

/-- `Particle.diff(self, other, tolerance=1e-5)`: the dictionary of all
properties (line number excluded) that are not close, mapped to the pair of
values, in field order. -/
def Particle.diff (p q : Particle) (tolerance : ℚ) :
    Except String (List (String × Val × Val)) :=
  diffPairs tolerance (p.namedPairs q)

/-- `Particle.__eq__`: equality considers only the `id` field. -/
def Particle.beq (p q : Particle) : Bool := p.id == q.id

/-- The is-close predicate exactly as the specification words it:
for float fields `|a-b| <= max(tolerance, tolerance*max(|a|,|b|))`,
for non-float fields exact equality.  (Spec-side definition, to be compared
against the source-side `valIsClose`.) -/
def specClose (tolerance : ℚ) (a b : Val) : Bool :=
  match a, b with
  | .f a, .f b => decide (|a - b| ≤ max tolerance (tolerance * max |a| |b|))
  | a, b => a == b

/-! ### Properties of `Particle.diff` -/

/-- For a nonnegative tolerance the local is-close helper never raises and
agrees with the specification's wording of closeness. -/
theorem valIsClose_eq_specClose {tolerance : ℚ} (h : 0 ≤ tolerance) (a b : Val) :
    valIsClose tolerance a b = .ok (specClose tolerance a b) := by
  have hn : ¬ (tolerance < 0 ∨ tolerance < 0) := by
    simp only [or_self, not_lt]
    exact h
  cases a <;> cases b <;> simp only [valIsClose, specClose, isclose, if_neg hn]
  congr 1
  exact decide_eq_decide.mpr (by rw [max_comm])

theorem diffPairs_eq_filter {tolerance : ℚ} (h : 0 ≤ tolerance)
    (l : List (String × Val × Val)) :
    diffPairs tolerance l =
      .ok (l.filter (fun t => !(specClose tolerance t.2.1 t.2.2))) := by
  induction l with
  | nil => rfl
  | cons hd tl ih =>
    obtain ⟨f, a, b⟩ := hd
    show (do
        let c ← valIsClose tolerance a b
        let r ← diffPairs tolerance tl
        pure (if c then r else (f, a, b) :: r)) = _
    rw [valIsClose_eq_specClose h, ih]
    cases hc : specClose tolerance a b <;> simp only [List.filter_cons, hc] <;> rfl

theorem specClose_refl {tolerance : ℚ} (h : 0 ≤ tolerance) (a : Val) :
    specClose tolerance a a = true := by
  cases a <;> simp only [specClose, beq_self_eq_true]
  rw [sub_self, abs_zero, decide_eq_true_eq]
  exact le_max_of_le_left h

/-- C2: for two records with equal id and a nonnegative tolerance, `diff`
reports exactly the fields (the nine named fields, `line` excluded) whose
values are not close in the sense of the specification: for floats
`|a-b| <= max(tolerance, tolerance*max(|a|,|b|))`, for non-floats exact
equality; an empty result means every one of the nine fields is close. -/
theorem claim_C2 (p q : Particle) (tolerance : ℚ)
    (_hid : p.id = q.id) (htol : 0 ≤ tolerance) :
    p.diff q tolerance =
      .ok ((p.namedPairs q).filter (fun t => !(specClose tolerance t.2.1 t.2.2))) ∧
    (∀ r, p.diff q tolerance = .ok r →
      ∀ t ∈ p.namedPairs q, (t ∈ r ↔ specClose tolerance t.2.1 t.2.2 = false)) ∧
    (p.diff q tolerance = .ok [] ↔
      ∀ t ∈ p.namedPairs q, specClose tolerance t.2.1 t.2.2 = true) := by
  have hmain : p.diff q tolerance =
      .ok ((p.namedPairs q).filter (fun t => !(specClose tolerance t.2.1 t.2.2))) :=
    diffPairs_eq_filter htol _
  refine ⟨hmain, ?_, ?_⟩
  · intro r hr t ht
    rw [hmain] at hr
    obtain rfl : _ = r := Except.ok.inj hr
    simp [List.mem_filter, ht]
  · rw [hmain]
    simp only [Except.ok.injEq, List.filter_eq_nil_iff, Bool.not_eq_true]
    constructor
    · intro hall t ht
      have := hall t ht
      simpa using this
    · intro hall t ht
      simp [hall t ht]

/-- A pion-like record used as concrete test input. -/
def pC3 : Particle := ⟨"pi+", 211, 13957/100000, 0, 0, 1, 0, 26/1000000000, 211, 7⟩

/-- C3 fails as stated: with a negative tolerance argument,
`diff(r, r, tolerance)` raises `ValueError` (from `math.isclose`) instead of
returning an empty mapping. -/
theorem claim_C3_counterexample :
    Particle.diff pC3 pC3 (-1) = .error "tolerances must be non-negative" ∧
    ∀ r, Particle.diff pC3 pC3 (-1) ≠ .ok r := by
  refine ⟨by rfl, ?_⟩
  intro r
  rw [show Particle.diff pC3 pC3 (-1) = .error "tolerances must be non-negative" from rfl]
  exact fun h => Except.noConfusion h

/-- C3 (amended): for every record `r` and every **nonnegative** tolerance,
`diff(r, r, tolerance)` returns the empty mapping; for negative tolerances
`math.isclose` raises `ValueError`. -/
theorem claim_C3 (r : Particle) (tolerance : ℚ) (h : 0 ≤ tolerance) :
    r.diff r tolerance = .ok [] := by
  rw [Particle.diff, diffPairs_eq_filter h]
  congr 1
  rw [List.filter_eq_nil_iff]
  intro t ht
  have : t.2.1 = t.2.2 := by
    revert ht
    simp only [Particle.namedPairs, Particle.valuesAll, fieldNamesAll]
    intro ht
    fin_cases ht <;> rfl
  rw [this]
  simp [specClose_refl h]

/-- Witness for C2 at a concrete input. -/
theorem claim_C2_witness :
    pC3.id = pC3.id ∧ (0:ℚ) ≤ DEFAULT_TOLERANCE ∧
    (pC3.diff pC3 DEFAULT_TOLERANCE =
      .ok ((pC3.namedPairs pC3).filter
        (fun t => !(specClose DEFAULT_TOLERANCE t.2.1 t.2.2))) ∧
    (∀ r, pC3.diff pC3 DEFAULT_TOLERANCE = .ok r →
      ∀ t ∈ pC3.namedPairs pC3,
        (t ∈ r ↔ specClose DEFAULT_TOLERANCE t.2.1 t.2.2 = false)) ∧
    (pC3.diff pC3 DEFAULT_TOLERANCE = .ok [] ↔
      ∀ t ∈ pC3.namedPairs pC3, specClose DEFAULT_TOLERANCE t.2.1 t.2.2 = true)) :=
  ⟨rfl, by norm_num [DEFAULT_TOLERANCE],
    claim_C2 pC3 pC3 DEFAULT_TOLERANCE rfl (by norm_num [DEFAULT_TOLERANCE])⟩

/-- Witness for the amended C3 at a concrete input. -/
theorem claim_C3_witness :
    (0:ℚ) ≤ 0 ∧ pC3.diff pC3 0 = .ok [] :=
  ⟨le_refl 0, claim_C3 pC3 0 (le_refl 0)⟩

/-! ### String helpers modelling the Python string operations used.
Implemented over the character list so that they evaluate by kernel
reduction; ASCII semantics (the PDL format is ASCII). -/

/-- ASCII lower-casing of one character, as `str.lower` acts on ASCII. -/
def charLower (c : Char) : Char :=
  if 'A' ≤ c ∧ c ≤ 'Z' then Char.ofNat (c.toNat + 32) else c

/-- `str.lower()`. -/
def pyLower (s : String) : String := ⟨s.data.map charLower⟩

/-- Python whitespace (`str.split()` / `str.strip()` default set, ASCII). -/
def isSpaceChar (c : Char) : Bool :=
  c = ' ' ∨ c = '\t' ∨ c = '\n' ∨ c = '\r' ∨ c = Char.ofNat 11 ∨ c = Char.ofNat 12

/-- Helper for `pysplit`: cut at every whitespace character. -/
def pysplitAux : List Char → List Char → List String
  | [], cur => [⟨cur.reverse⟩]
  | c :: cs, cur =>
    if isSpaceChar c then ⟨cur.reverse⟩ :: pysplitAux cs [] else pysplitAux cs (c :: cur)

/-- `str.split()` with no argument: split on runs of whitespace,
discarding empty pieces. -/
def pysplit (s : String) : List String :=
  (pysplitAux s.data []).filter (fun t => t ≠ "")

/-- `line.startswith('*')`. -/
def startsWithStar (s : String) : Bool :=
  match s.data with
  | c :: _ => c = '*'
  | [] => false

/-- `not line.strip()`: the line is empty or whitespace only. -/
def isBlankLine (s : String) : Bool := s.data.all isSpaceChar

/-! ### The report table -/

/-- One table cell as handed to `_add_row`: the empty string, the
placeholder `'--'`, a field value, or a line number. -/
inductive Cell where
  | blank
  | dash
  | val (v : Val)
  | line (n : ℤ)
deriving DecidableEq

/-- One call to `_add_row`: the row of the report table with its tag
(`what`) and its eight column arguments.  The purely presentational part of
`_add_row` (significant-digit formatting of floats, run-length compression
of repeated name/id/line cells, CSS classes, XML serialisation) is the
display layer and is not modelled; no claim refers to it. -/
structure Row where
  what : String
  name : String
  id : ℤ
  property : String
  valueA : Cell
  valueB : Cell
  lineA : Cell
  lineB : Cell
deriving DecidableEq

/-- `PDLDiffTable.__init__`'s configuration state: the two file names and
the `order`/`tolerance`/`precision` options (`order` stored lower-cased). -/
structure PDLDiffTable where
  fileA : String
  fileB : String
  order : String
  tolerance : ℚ
  precision : ℕ
deriving DecidableEq

/-- `PDLDiffTable.__init__(fileA, fileB, order="name", tolerance=1e-5,
precision=5)`: lower-cases `order`, validates it against
`('id', 'name', 'a', 'b')` and raises `RuntimeError` otherwise.  It touches
no file: parsing happens only later, in `fill`. -/
def PDLDiffTable.init (fileA fileB order : String) (tolerance : ℚ) (precision : ℕ) :
    Except String PDLDiffTable :=
  let o := pyLower order
  if o = "id" ∨ o = "name" ∨ o = "a" ∨ o = "b" then
    .ok ⟨fileA, fileB, o, tolerance, precision⟩
  else
    .error ("unknown sort order: " ++ o ++ ", choose one of id, name, A, B")

/-- The body of `_compare`'s loop for one pair `(a, b)`: `diff = a.diff(b)`
— note the call site passes **no** tolerance argument, so the default
`1e-5` is used regardless of the configured `self.tolerance`.  An empty
diff yields one untagged row, otherwise one `'changed'` row per property. -/
def rowsForPair (a b : Particle) : Except String (List Row) := do
  let d ← a.diff b DEFAULT_TOLERANCE
  if d.isEmpty then
    pure [⟨"", a.name, a.id, "", .blank, .blank, .line a.line, .line b.line⟩]
  else
    pure (d.map (fun t =>
      ⟨"changed", a.name, a.id, t.1, .val t.2.1, .val t.2.2, .line a.line, .line b.line⟩))

/-- Recursion over the zipped pairs of `_compare`. -/
def compareGo : List (Particle × Particle) → Except String (List Row)
  | [] => .ok []
  | (a, b) :: rest => do
    let rs ← rowsForPair a b
    let more ← compareGo rest
    pure (rs ++ more)

/-- `PDLDiffTable._compare(self, A, B)`: walk `zip(A, B)` emitting rows.
`self` is received (as in the source) but its `tolerance` is never read. -/
def PDLDiffTable.compare (_self : PDLDiffTable) (A B : List Particle) :
    Except String (List Row) :=
  compareGo (A.zip B)

/-- `zip(b._fields[2:-1], b[2:])`: the field names sliced `[2:-1]` (all
fields except `name`, `id` and the trailing `line`) paired with the values
sliced `[2:]` (`zip` truncates the longer value slice). -/
def Particle.midPairs (b : Particle) : List (String × Val) :=
  List.zip (fieldNamesAll.drop 2).dropLast (b.valuesAll.drop 2)

/-- `PDLDiffTable._added(self, B)`: one `'added'` row per sliced field, with
`'--'` for the old value and for the line in file A. -/
def PDLDiffTable.added (B : List Particle) : List Row :=
  B.flatMap (fun b => b.midPairs.map (fun kv =>
    ⟨"added", b.name, b.id, kv.1, .dash, .val kv.2, .dash, .line b.line⟩))

/-- `PDLDiffTable._removed(self, A)`: one `'removed'` row per sliced field,
with `'--'` for the new value and for the line in file B. -/
def PDLDiffTable.removed (A : List Particle) : List Row :=
  A.flatMap (fun a => a.midPairs.map (fun kv =>
    ⟨"removed", a.name, a.id, kv.1, .val kv.2, .dash, .line a.line, .dash⟩))

/-! ### Claims about the constructor and the row builders -/

/-- C7: for every ordering-mode string whose lower-cased value is one of
`id`, `name`, `a`, `b`, construction succeeds; for every other string it
fails with an error naming the (lower-cased) invalid value and the valid
choices.  The constructor receives only the file *names*; no file content
enters it, so the failure precedes any parsing (parsing happens in `fill`). -/
theorem claim_C7 (fileA fileB order : String) (tolerance : ℚ) (precision : ℕ) :
    ((pyLower order = "id" ∨ pyLower order = "name" ∨
      pyLower order = "a" ∨ pyLower order = "b") →
      PDLDiffTable.init fileA fileB order tolerance precision =
        .ok ⟨fileA, fileB, pyLower order, tolerance, precision⟩) ∧
    (¬(pyLower order = "id" ∨ pyLower order = "name" ∨
       pyLower order = "a" ∨ pyLower order = "b") →
      PDLDiffTable.init fileA fileB order tolerance precision =
        .error ("unknown sort order: " ++ pyLower order ++
          ", choose one of id, name, A, B")) := by
  constructor
  · intro h
    simp only [PDLDiffTable.init, if_pos h]
  · intro h
    simp only [PDLDiffTable.init, if_neg h]

/-- Witness for C7: a mixed-case valid mode is accepted, an invalid mode is
rejected with the documented message. -/
theorem claim_C7_witness :
    (pyLower "NAme" = "id" ∨ pyLower "NAme" = "name" ∨
      pyLower "NAme" = "a" ∨ pyLower "NAme" = "b") ∧
    PDLDiffTable.init "old.pdl" "new.pdl" "NAme" (1/1000) 5 =
      .ok ⟨"old.pdl", "new.pdl", "name", 1/1000, 5⟩ ∧
    ¬(pyLower "lines" = "id" ∨ pyLower "lines" = "name" ∨
      pyLower "lines" = "a" ∨ pyLower "lines" = "b") ∧
    PDLDiffTable.init "old.pdl" "new.pdl" "lines" (1/1000) 5 =
      .error "unknown sort order: lines, choose one of id, name, A, B" := by
  have h1 : pyLower "NAme" = "name" := by decide
  have h2 : ¬(pyLower "lines" = "id" ∨ pyLower "lines" = "name" ∨
      pyLower "lines" = "a" ∨ pyLower "lines" = "b") := by decide
  refine ⟨Or.inr (Or.inl h1), ?_, h2, ?_⟩
  · have := (claim_C7 "old.pdl" "new.pdl" "NAme" (1/1000) 5).1 (Or.inr (Or.inl h1))
    rw [this, h1]
  · have := (claim_C7 "old.pdl" "new.pdl" "lines" (1/1000) 5).2 h2
    rw [this, show pyLower "lines" = "lines" by decide]
    rfl

/-- Particles and a configuration exhibiting the tolerance bug. -/
def cfgC1 : PDLDiffTable := ⟨"old.pdl", "new.pdl", "name", 1/2, 5⟩

/-- Record with mass 1 in file A, line 3. -/
def paC1 : Particle := ⟨"K0", 311, 1, 0, 0, 0, 0, 0, 0, 3⟩

/-- The same record in file B with mass 2, line 4. -/
def pbC1 : Particle := ⟨"K0", 311, 2, 0, 0, 0, 0, 0, 0, 4⟩

/-- C1 fails on the code (code bug): `_compare` never consults the
configured tolerance — its output is identical for every configuration —
because `a.diff(b)` is called without the `tolerance` argument, so the
default `1e-5` is always used.  Concretely, with configured tolerance `1/2`
and masses `1` and `2`, the values are close under the configured tolerance
(`|1-2| <= max(1/2, 1/2*2)`), yet a `'changed'` row for `mass` is emitted. -/
theorem claim_C1_bug :
    (∀ t t' : PDLDiffTable, ∀ A B : List Particle,
      PDLDiffTable.compare t A B = PDLDiffTable.compare t' A B) ∧
    cfgC1.tolerance = 1/2 ∧
    PDLDiffTable.compare cfgC1 [paC1] [pbC1] =
      .ok [⟨"changed", "K0", 311, "mass", .val (.f 1), .val (.f 2), .line 3, .line 4⟩] ∧
    specClose cfgC1.tolerance (.f paC1.mass) (.f pbC1.mass) = true := by
  refine ⟨fun t t' A B => rfl, rfl, by with_unfolding_all rfl, by with_unfolding_all decide⟩

/-- C9: `_removed` emits, for every record of the deleted span, exactly one
`'removed'` row per field — the fields being the slice `[2:-1]`, i.e. all
fields except `name`, `id` and the trailing source line — carrying the old
value, with the new-value and line-in-B columns showing `'--'`; `_added` is
the mirror image. -/
theorem midPairs_eq (p : Particle) :
    p.midPairs =
      [("mass", .f p.mass), ("width", .f p.width), ("max_dM", .f p.max_dM),
       ("charge", .i p.charge), ("spin", .i p.spin), ("lifetime", .f p.lifetime),
       ("pythiaId", .i p.pythiaId)] := rfl

theorem claim_C9 (A B : List Particle) :
    PDLDiffTable.removed A = A.flatMap (fun a =>
      [⟨"removed", a.name, a.id, "mass", .val (.f a.mass), .dash, .line a.line, .dash⟩,
       ⟨"removed", a.name, a.id, "width", .val (.f a.width), .dash, .line a.line, .dash⟩,
       ⟨"removed", a.name, a.id, "max_dM", .val (.f a.max_dM), .dash, .line a.line, .dash⟩,
       ⟨"removed", a.name, a.id, "charge", .val (.i a.charge), .dash, .line a.line, .dash⟩,
       ⟨"removed", a.name, a.id, "spin", .val (.i a.spin), .dash, .line a.line, .dash⟩,
       ⟨"removed", a.name, a.id, "lifetime", .val (.f a.lifetime), .dash, .line a.line, .dash⟩,
       ⟨"removed", a.name, a.id, "pythiaId", .val (.i a.pythiaId), .dash, .line a.line, .dash⟩]) ∧
    PDLDiffTable.added B = B.flatMap (fun b =>
      [⟨"added", b.name, b.id, "mass", .dash, .val (.f b.mass), .dash, .line b.line⟩,
       ⟨"added", b.name, b.id, "width", .dash, .val (.f b.width), .dash, .line b.line⟩,
       ⟨"added", b.name, b.id, "max_dM", .dash, .val (.f b.max_dM), .dash, .line b.line⟩,
       ⟨"added", b.name, b.id, "charge", .dash, .val (.i b.charge), .dash, .line b.line⟩,
       ⟨"added", b.name, b.id, "spin", .dash, .val (.i b.spin), .dash, .line b.line⟩,
       ⟨"added", b.name, b.id, "lifetime", .dash, .val (.f b.lifetime), .dash, .line b.line⟩,
       ⟨"added", b.name, b.id, "pythiaId", .dash, .val (.i b.pythiaId), .dash, .line b.line⟩]) ∧
    (∀ r ∈ PDLDiffTable.removed A,
      r.what = "removed" ∧ r.valueB = .dash ∧ r.lineB = .dash ∧
      r.property ≠ "name" ∧ r.property ≠ "id" ∧ r.property ≠ "line") ∧
    (∀ r ∈ PDLDiffTable.added B,
      r.what = "added" ∧ r.valueA = .dash ∧ r.lineA = .dash ∧
      r.property ≠ "name" ∧ r.property ≠ "id" ∧ r.property ≠ "line") := by
  refine ⟨?_, ?_, ?_, ?_⟩
  · rfl
  · rfl
  · intro r hr
    simp only [PDLDiffTable.removed, midPairs_eq, List.mem_flatMap, List.mem_map,
      List.mem_cons, List.not_mem_nil, or_false] at hr
    obtain ⟨a, _, kv, hkv, rfl⟩ := hr
    rcases hkv with rfl | rfl | rfl | rfl | rfl | rfl | rfl <;>
      exact ⟨rfl, rfl, rfl, by simp, by simp, by simp⟩
  · intro r hr
    simp only [PDLDiffTable.added, midPairs_eq, List.mem_flatMap, List.mem_map,
      List.mem_cons, List.not_mem_nil, or_false] at hr
    obtain ⟨b, _, kv, hkv, rfl⟩ := hr
    rcases hkv with rfl | rfl | rfl | rfl | rfl | rfl | rfl <;>
      exact ⟨rfl, rfl, rfl, by simp, by simp, by simp⟩

/-! ### The parser `parse_evtpdl`

The file is modelled as the list of its lines (without trailing newline:
`startswith`, `strip` and `split` are insensitive to it).  `int(...)` and
`float(...)` are modelled for decimal literals, the only forms a PDL file
contains (`inf`/`nan` and underscore separators are outside the `ℚ` model
and are rejected). -/

/-- `str.strip()` as a character list. -/
def pyStrip (s : String) : List Char :=
  ((s.data.dropWhile isSpaceChar).reverse.dropWhile isSpaceChar).reverse

/-- Value of a nonempty digit run. -/
def digitsToNat (cs : List Char) : ℕ :=
  cs.foldl (fun n c => n * 10 + (c.toNat - 48)) 0

/-- A nonempty run of decimal digits. -/
def allDigits (cs : List Char) : Bool := !cs.isEmpty && cs.all Char.isDigit

/-- `int(s)`: optional surrounding whitespace, optional sign, digits. -/
def pyInt (s : String) : Except String ℤ :=
  let t := pyStrip s
  match t with
  | '-' :: ds =>
    if allDigits ds then .ok (-(digitsToNat ds : ℤ))
    else .error ("invalid literal for int() with base 10: " ++ s)
  | '+' :: ds =>
    if allDigits ds then .ok (digitsToNat ds : ℤ)
    else .error ("invalid literal for int() with base 10: " ++ s)
  | ds =>
    if allDigits ds then .ok (digitsToNat ds : ℤ)
    else .error ("invalid literal for int() with base 10: " ++ s)

/-- Value of `intpart.fracpart` for a decimal mantissa; `none` if malformed
(at least one digit required overall, nothing but digits on either side). -/
def mantissaVal (cs : List Char) : Option ℚ :=
  let ip := cs.takeWhile (fun c => c ≠ '.')
  let rest := cs.drop ip.length
  match rest with
  | [] => if allDigits ip then some (digitsToNat ip : ℚ) else none
  | _ :: fp =>
    if (!ip.isEmpty || !fp.isEmpty) && ip.all Char.isDigit && fp.all Char.isDigit then
      some ((digitsToNat ip : ℚ) + (digitsToNat fp : ℚ) / ((10 : ℚ) ^ fp.length))
    else none

/-- Signed decimal exponent after `e`/`E`. -/
def expVal (cs : List Char) : Option ℤ :=
  match cs with
  | '-' :: ds => if allDigits ds then some (-(digitsToNat ds : ℤ)) else none
  | '+' :: ds => if allDigits ds then some (digitsToNat ds : ℤ) else none
  | ds => if allDigits ds then some (digitsToNat ds : ℤ) else none

/-- `10^e` for a signed exponent. -/
def pow10 (e : ℤ) : ℚ :=
  match e with
  | .ofNat n => (10 : ℚ) ^ n
  | .negSucc n => 1 / (10 : ℚ) ^ (n + 1)

/-- `float(s)` for decimal literals `[sign] digits [. digits] [(e|E) [sign]
digits]`, with exact rational value. -/
def pyFloat (s : String) : Except String ℚ :=
  let t := pyStrip s
  let sgn : ℚ := match t.head? with | some '-' => -1 | _ => 1
  let t2 := match t.head? with | some '-' => t.tail | some '+' => t.tail | _ => t
  let mant := t2.takeWhile (fun c => c ≠ 'e' ∧ c ≠ 'E')
  let erest := t2.drop mant.length
  let eo : Option ℤ := match erest with | [] => some 0 | _ :: ecs => expVal ecs
  match mantissaVal mant, eo with
  | some m, some e => .ok (sgn * (m * pow10 e))
  | _, _ => .error ("could not convert string to float: " ++ s)

/-- `Particle(*[convert(e) for convert, e in zip(Particle.TYPES, values)])`
where `values = line.split()[3:] + [nr]`: the nine tokens after the marker
convert positionally; `zip` truncates at the ten types, so with exactly
nine tokens the appended line number `nr` is the last value, with extra
tokens the tenth *token* is `int`-converted into the `line` field (and `nr`
dropped), and with fewer than nine tokens the `Particle` constructor fails
(`TypeError`), which aborts parsing. -/
def mkParticle (toks : List String) (nr : ℕ) : Except String Particle :=
  match toks with
  | name :: t1 :: t2 :: t3 :: t4 :: t5 :: t6 :: t7 :: t8 :: rest => do
    let idv ← pyInt t1
    let mass ← pyFloat t2
    let width ← pyFloat t3
    let mdm ← pyFloat t4
    let charge ← pyInt t5
    let spin ← pyInt t6
    let lt ← pyFloat t7
    let pid ← pyInt t8
    let lineVal ← match rest with
      | [] => .ok (nr : ℤ)
      | l :: _ => pyInt l
    .ok ⟨name, idv, mass, width, mdm, charge, spin, lt, pid, lineVal⟩
  | _ => .error "TypeError: Particle() missing required positional arguments"

/-- The loop of `parse_evtpdl` over `enumerate(f)`: skip comment lines
(`'*'`) and blank lines, stop at the first line whose first token is
`end`, log-and-skip lines whose first three tokens are not
`add p Particle`, convert the rest. -/
def parseGo :
    List String → ℕ → List Particle → List (ℕ × String) →
      Except String (List Particle × List (ℕ × String))
  | [], _, acc, diags => .ok (acc, diags)
  | line :: rest, nr, acc, diags =>
    if startsWithStar line then parseGo rest (nr + 1) acc diags
    else if isBlankLine line then parseGo rest (nr + 1) acc diags
    else
      let values := pysplit line
      if values.head? = some "end" then .ok (acc, diags)
      else if values.take 3 ≠ ["add", "p", "Particle"] then
        parseGo rest (nr + 1) acc (diags ++ [(nr, line)])
      else do
        let p ← mkParticle (values.drop 3) nr
        parseGo rest (nr + 1) (acc ++ [p]) diags

/-- `parse_evtpdl(name)`: parse the lines of the file, returning the
particles together with the logged diagnostics (line number and offending
line of every `logging.error` call). -/
def parse_evtpdl (lines : List String) :
    Except String (List Particle × List (ℕ × String)) :=
  parseGo lines 0 [] []

/-- C8: one-step characterisation of the parser: a line that is blank or
starts with `'*'` is skipped; a remaining line whose first token is `end`
stops processing entirely, returning what was accumulated; a remaining line
whose first three tokens are not `add p Particle` adds one diagnostic
carrying the offending line number and is skipped without aborting; and a
well-formed line (marker correct, fields convert) appends exactly one
record and continues. -/
theorem claim_C8 (line : String) (rest : List String) (nr : ℕ)
    (acc : List Particle) (diags : List (ℕ × String)) :
    (startsWithStar line = true ∨ isBlankLine line = true →
      parseGo (line :: rest) nr acc diags = parseGo rest (nr + 1) acc diags) ∧
    (startsWithStar line = false → isBlankLine line = false →
      (pysplit line).head? = some "end" →
      parseGo (line :: rest) nr acc diags = .ok (acc, diags)) ∧
    (startsWithStar line = false → isBlankLine line = false →
      (pysplit line).head? ≠ some "end" →
      (pysplit line).take 3 ≠ ["add", "p", "Particle"] →
      parseGo (line :: rest) nr acc diags =
        parseGo rest (nr + 1) acc (diags ++ [(nr, line)])) ∧
    (∀ p, startsWithStar line = false → isBlankLine line = false →
      (pysplit line).head? ≠ some "end" →
      (pysplit line).take 3 = ["add", "p", "Particle"] →
      mkParticle ((pysplit line).drop 3) nr = .ok p →
      parseGo (line :: rest) nr acc diags =
        parseGo rest (nr + 1) (acc ++ [p]) diags) := by
  refine ⟨?_, ?_, ?_, ?_⟩
  · rintro (h | h)
    · simp [parseGo, h]
    · simp [parseGo, h]
  · intro h1 h2 h3
    simp [parseGo, h1, h2, h3]
  · intro h1 h2 h3 h4
    simp [parseGo, h1, h2, h3, h4]
  · intro p h1 h2 h3 h4 h5
    simp [parseGo, h1, h2, h3, h4, h5]
    rfl

/-- A well-formed data line used as concrete test input. -/
def goodLineC8 : String := "add p Particle pi+ 211 1.0 0.0 0.0 3 1 0.5 211"

/-- The record parsed from `goodLineC8` at line number 5. -/
def pGoodC8 : Particle := ⟨"pi+", 211, 1, 0, 0, 3, 1, 1/2, 211, 5⟩

/-- Witness for C8: each of the four parser behaviours at a concrete line. -/
theorem claim_C8_witness :
    (startsWithStar "* header" = true ∨ isBlankLine "* header" = true) ∧
    parseGo ["* header"] 5 [] [] = parseGo [] 6 [] [] ∧
    ((pysplit "end of file").head? = some "end") ∧
    parseGo ["end of file", "later"] 5 [] [] = .ok ([], []) ∧
    ((pysplit "set x 1").take 3 ≠ ["add", "p", "Particle"]) ∧
    parseGo ["set x 1"] 5 [] [] = parseGo [] 6 [] [(5, "set x 1")] ∧
    mkParticle ((pysplit goodLineC8).drop 3) 5 = .ok pGoodC8 ∧
    parseGo [goodLineC8] 5 [] [] = parseGo [] 6 [pGoodC8] [] := by
  have hmk : mkParticle ((pysplit goodLineC8).drop 3) 5 = .ok pGoodC8 := by
    with_unfolding_all rfl
  refine ⟨Or.inl (by decide), ?_, by decide, ?_, by decide, ?_, hmk, ?_⟩
  · exact (claim_C8 "* header" [] 5 [] []).1 (Or.inl (by decide))
  · exact (claim_C8 "end of file" ["later"] 5 [] []).2.1 (by decide) (by decide) (by decide)
  · exact (claim_C8 "set x 1" [] 5 [] []).2.2.1 (by decide) (by decide) (by decide) (by decide)
  · exact (claim_C8 goodLineC8 [] 5 [] []).2.2.2 pGoodC8 (by decide) (by decide)
      (by decide) (by decide) hmk

/-! ### `_sort_by`: reordering one list by the other

Python dicts preserve key insertion order; `Bdict` is modelled as an
association list in that order, assignment overwriting in place. -/

/-- `d[k] = v` on an insertion-ordered dict. -/
def dictSet (m : List (ℤ × Particle)) (k : ℤ) (v : Particle) : List (ℤ × Particle) :=
  if m.any (fun kv => kv.1 == k) then
    m.map (fun kv => if kv.1 == k then (k, v) else kv)
  else m ++ [(k, v)]

/-- `Bdict = {b.id: b for b in B}` (later duplicates overwrite earlier). -/
def mkBdict (B : List Particle) : List (ℤ × Particle) :=
  B.foldl (fun m b => dictSet m b.id b) []

/-- `Bdict.pop(k, None)`: the popped value, and the dict without that key. -/
def dictPop (m : List (ℤ × Particle)) (k : ℤ) :
    Option Particle × List (ℤ × Particle) :=
  ((m.find? (fun kv => kv.1 == k)).map (fun kv => kv.2),
   m.filter (fun kv => kv.1 != k))

/-- The `for a in A` loop of `_sort_by`: collect `Bdict.pop(a.id)` hits in
A's order (the dict is unchanged on a miss). -/
def popLoop : List Particle → List (ℤ × Particle) → List Particle × List (ℤ × Particle)
  | [], d => ([], d)
  | a :: A, d =>
    match (dictPop d a.id).1 with
    | some b =>
      let r := popLoop A (dictPop d a.id).2
      (b :: r.1, r.2)
    | none => popLoop A d

/-- Comparison key `lambda x: x.line` of the final `sorted(...)`. -/
def lineLe (x y : Particle) : Prop := x.line ≤ y.line

instance : DecidableRel lineLe := fun x y => Int.decLe x.line y.line

instance : IsTotal Particle lineLe := ⟨fun a b => Int.le_total a.line b.line⟩

instance : IsTrans Particle lineLe := ⟨fun _ _ _ => Int.le_trans⟩

/-- `PDLDiffTable._sort_by(self, A, B)`: matched records in A's order, then
the remaining values of `Bdict` sorted (stably) by line number.
`List.insertionSort` with a non-strict `≤` is a stable sort, matching
Python's `sorted`. -/
def PDLDiffTable.sort_by (A B : List Particle) : List Particle :=
  let r := popLoop A (mkBdict B)
  r.1 ++ List.insertionSort lineLe (r.2.map (fun kv => kv.2))

/-- Sort key `lambda x: x.name` (Python string order = code point order). -/
def nameLe (x y : Particle) : Prop := x.name ≤ y.name

instance : DecidableRel nameLe := fun x y => inferInstanceAs (Decidable (x.name ≤ y.name))

/-- Sort key `lambda x: x.id`. -/
def idLe (x y : Particle) : Prop := x.id ≤ y.id

instance : DecidableRel idLe := fun x y => Int.decLe x.id y.id

/-- The ordering dispatch at the top of `PDLDiffTable.fill` (the `elif`
chain on `self.order`); `list.sort` is stable, as is `insertionSort`. -/
def PDLDiffTable.orderLists (self : PDLDiffTable) (A B : List Particle) :
    List Particle × List Particle :=
  if self.order = "name" then (List.insertionSort nameLe A, List.insertionSort nameLe B)
  else if self.order = "id" then (List.insertionSort idLe A, List.insertionSort idLe B)
  else if self.order = "a" then (A, PDLDiffTable.sort_by A B)
  else if self.order = "b" then (PDLDiffTable.sort_by B A, B)
  else (A, B)

/-! ### Properties of `_sort_by` -/

theorem find?_filter_of_imp {α : Type} (p q : α → Bool) (l : List α)
    (h : ∀ x, q x = true → p x = true) : (l.filter p).find? q = l.find? q := by
  induction l with
  | nil => rfl
  | cons a l ih =>
    by_cases hq : q a = true
    · rw [List.filter_cons, if_pos (h a hq), List.find?_cons_of_pos _ hq,
        List.find?_cons_of_pos _ hq]
    · rw [List.find?_cons_of_neg _ (by simp [hq]), ← ih, List.filter_cons]
      by_cases hp : p a = true
      · rw [if_pos hp, List.find?_cons_of_neg _ (by simp [hq])]
      · rw [if_neg hp]

theorem bne_eq_not_beq (a k : ℤ) : (a != k) = !(k == a) := by
  by_cases h : a = k
  · subst h
    simp
  · simp [bne, h, Ne.symm h]

/-- If `find?` hits an entry in a dict with distinct keys, the dict is a
permutation of that entry plus the dict with the key removed. -/
theorem perm_of_find?_eq_some (d : List (ℤ × Particle)) (k : ℤ) (kv : ℤ × Particle)
    (hd : (d.map Prod.fst).Nodup) (hf : d.find? (fun x => x.1 == k) = some kv) :
    d.Perm (kv :: d.filter (fun x => x.1 != k)) := by
  induction d with
  | nil => simp at hf
  | cons h t ih =>
    by_cases hh : (h.1 == k) = true
    · simp only [List.find?_cons, hh] at hf
      have hk : h.1 = k := by simpa using hh
      have ht : t.filter (fun x => x.1 != k) = t := by
        rw [List.filter_eq_self]
        intro x hx
        have hmem : x.1 ∈ List.map Prod.fst t := List.mem_map_of_mem Prod.fst hx
        have hne : x.1 ≠ k := by
          intro he
          exact (List.nodup_cons.mp hd).1 ((he.trans hk.symm) ▸ hmem)
        simp [bne, hne]
      have hfilter : (h :: t).filter (fun x => x.1 != k) = t := by
        rw [List.filter_cons, if_neg (by simp [bne, hh]), ht]
      rw [hfilter, ← Option.some.inj hf]
    · simp only [List.find?_cons, Bool.not_eq_true] at hh
      simp only [List.find?_cons, hh] at hf
      have hperm := ih (List.nodup_cons.mp hd).2 hf
      have hkeep : ((h :: t).filter (fun x => x.1 != k)) =
          h :: t.filter (fun x => x.1 != k) := by
        simp only [List.filter_cons, bne, hh, Bool.not_false, if_true]
      rw [hkeep]
      exact (hperm.cons h).trans (List.Perm.swap kv h _)

theorem nodup_keys_filter (d : List (ℤ × Particle)) (p : ℤ × Particle → Bool)
    (hd : (d.map Prod.fst).Nodup) : ((d.filter p).map Prod.fst).Nodup :=
  List.Nodup.sublist (List.Sublist.map Prod.fst (List.filter_sublist d)) hd

/-- The hits and the leftover of `popLoop` together are a permutation of the
dict's values (for a dict with distinct keys). -/
theorem popLoop_perm (A : List Particle) (d : List (ℤ × Particle))
    (hd : (d.map Prod.fst).Nodup) :
    ((popLoop A d).1 ++ (popLoop A d).2.map Prod.snd).Perm (d.map Prod.snd) := by
  induction A generalizing d with
  | nil => simp [popLoop]
  | cons a A ih =>
    cases hfind : (dictPop d a.id).1 with
    | none =>
      have : popLoop (a :: A) d = popLoop A d := by
        rw [popLoop, hfind]
      rw [this]
      exact ih d hd
    | some b =>
      have hstep : popLoop (a :: A) d =
          (b :: (popLoop A (dictPop d a.id).2).1, (popLoop A (dictPop d a.id).2).2) := by
        rw [popLoop, hfind]
      have hd2 : (((dictPop d a.id).2).map Prod.fst).Nodup :=
        nodup_keys_filter d _ hd
      have ihd := ih _ hd2
      obtain ⟨kv, hkv, hb⟩ := Option.map_eq_some'.mp hfind
      have hperm := perm_of_find?_eq_some d a.id kv hd hkv
      have hvals : (d.map Prod.snd).Perm
          (b :: ((dictPop d a.id).2).map Prod.snd) := by
        have := hperm.map Prod.snd
        rw [List.map_cons, hb] at this
        exact this
      rw [hstep]
      exact (List.Perm.trans (List.Perm.cons b ihd) hvals.symm)

theorem foldl_dictSet_eq (B : List Particle) (m : List (ℤ × Particle))
    (hB : (B.map Particle.id).Nodup)
    (hdisj : ∀ b ∈ B, ∀ kv ∈ m, kv.1 ≠ b.id) :
    B.foldl (fun m b => dictSet m b.id b) m = m ++ B.map (fun b => (b.id, b)) := by
  induction B generalizing m with
  | nil => simp
  | cons b B ih =>
    have hnot : ¬ (m.any (fun kv => kv.1 == b.id) = true) := by
      simp only [List.any_eq_true, not_exists]
      intro kv
      simp only [not_and, beq_iff_eq]
      exact fun hkv => hdisj b (List.mem_cons_self b B) kv hkv
    have hBc : Particle.id b ∉ B.map Particle.id ∧ (B.map Particle.id).Nodup := by
      rw [List.map_cons] at hB
      exact List.nodup_cons.mp hB
    have hstep : (b :: B).foldl (fun m b => dictSet m b.id b) m =
        B.foldl (fun m b => dictSet m b.id b) (m ++ [(b.id, b)]) := by
      rw [List.foldl_cons, dictSet, if_neg hnot]
    have hdisj2 : ∀ b' ∈ B, ∀ kv ∈ m ++ [(b.id, b)], kv.1 ≠ b'.id := by
      intro b' hb' kv hkv
      rcases List.mem_append.mp hkv with hm | hone
      · exact hdisj b' (List.mem_cons_of_mem b hb') kv hm
      · have hkvb : kv = (b.id, b) := by simpa using hone
        rw [hkvb]
        intro he
        exact hBc.1 (by
          rw [show b.id = b'.id from he]
          exact List.mem_map_of_mem Particle.id hb')
    rw [hstep, ih (m ++ [(b.id, b)]) hBc.2 hdisj2]
    simp

theorem mkBdict_eq (B : List Particle) (hB : (B.map Particle.id).Nodup) :
    mkBdict B = B.map (fun b => (b.id, b)) := by
  simpa using foldl_dictSet_eq B [] hB (by simp)

/-- C10: for lists whose B-side ids are pairwise distinct, the reordering
`_sort_by(A, B)` is a permutation of B — every record of B appears exactly
once, none dropped or duplicated.  (The duplicate-id failure mode named by
the claim is exhibited by the C6 counterexample.) -/
theorem claim_C10 (A B : List Particle) (hB : (B.map Particle.id).Nodup) :
    (PDLDiffTable.sort_by A B).Perm B := by
  have hkeys : ((mkBdict B).map Prod.fst).Nodup := by
    rw [mkBdict_eq B hB]
    simpa [List.map_map, Function.comp] using hB
  have hpop := popLoop_perm A (mkBdict B) hkeys
  have hsort := List.perm_insertionSort lineLe
    ((popLoop A (mkBdict B)).2.map Prod.snd)
  have h1 : (PDLDiffTable.sort_by A B).Perm
      ((popLoop A (mkBdict B)).1 ++ (popLoop A (mkBdict B)).2.map Prod.snd) :=
    List.Perm.append_left _ hsort
  have h2 : ((mkBdict B).map Prod.snd) = B := by
    rw [mkBdict_eq B hB, List.map_map]
    exact List.map_id B
  rw [h2] at hpop
  exact h1.trans hpop

/-- Witness for C10 at a concrete input with distinct B-side ids. -/
theorem claim_C10_witness :
    ((([⟨"K+", 321, 0, 0, 0, 1, 0, 0, 0, 9⟩, ⟨"K-", -321, 0, 0, 0, -1, 0, 0, 0, 2⟩] :
        List Particle).map Particle.id).Nodup) ∧
    (PDLDiffTable.sort_by [⟨"K-", -321, 0, 0, 0, -1, 0, 0, 0, 5⟩]
       [⟨"K+", 321, 0, 0, 0, 1, 0, 0, 0, 9⟩, ⟨"K-", -321, 0, 0, 0, -1, 0, 0, 0, 2⟩]).Perm
      [⟨"K+", 321, 0, 0, 0, 1, 0, 0, 0, 9⟩, ⟨"K-", -321, 0, 0, 0, -1, 0, 0, 0, 2⟩] :=
  ⟨by decide, claim_C10 _ _ (by decide)⟩

/-- Closed form of `popLoop` when the ids in A are pairwise distinct:
the hits are A's id-matches looked up in the dict, in A's order; the
leftover is the dict restricted to ids unmatched in A, in dict order. -/
theorem popLoop_eq (A : List Particle) : ∀ (d : List (ℤ × Particle)),
    (A.map Particle.id).Nodup → ((d.map Prod.fst).Nodup) →
    popLoop A d =
      (A.filterMap (fun a => (d.find? (fun kv => kv.1 == a.id)).map (fun kv => kv.2)),
       d.filter (fun kv => !(A.any (fun a => a.id == kv.1)))) := by
  induction A with
  | nil =>
    intro d _ _
    simp [popLoop]
  | cons a A ih =>
    intro d hA hd
    have hAc : a.id ∉ A.map Particle.id ∧ (A.map Particle.id).Nodup := by
      rw [List.map_cons] at hA
      exact List.nodup_cons.mp hA
    cases hfind : (dictPop d a.id).1 with
    | none =>
      have hfn : d.find? (fun kv => kv.1 == a.id) = none := by
        have : ((d.find? (fun kv => kv.1 == a.id)).map (fun kv => kv.2)) = none := hfind
        exact Option.map_eq_none'.mp this
      have hstep : popLoop (a :: A) d = popLoop A d := by
        rw [popLoop, hfind]
      have hnone : ∀ kv ∈ d, (a.id == kv.1) = false := by
        intro kv hkv
        have hne := List.find?_eq_none.mp hfn kv hkv
        rw [beq_iff_eq] at hne
        rw [beq_eq_false_iff_ne]
        exact fun he => hne he.symm
      rw [hstep, ih d hAc.2 hd]
      refine Prod.ext ?_ ?_
      · rw [List.filterMap_cons]
        have : ((d.find? (fun kv => kv.1 == a.id)).map (fun kv => kv.2)) = none := hfind
        rw [this]
      · refine (List.filter_congr ?_).symm
        intro kv hkv
        rw [List.any_cons, hnone kv hkv, Bool.false_or]
    | some b =>
      have hd2 : (((dictPop d a.id).2).map Prod.fst).Nodup := nodup_keys_filter d _ hd
      have hstep : popLoop (a :: A) d =
          (b :: (popLoop A (dictPop d a.id).2).1, (popLoop A (dictPop d a.id).2).2) := by
        rw [popLoop, hfind]
      have hcong : List.filterMap
            (fun a' => ((dictPop d a.id).2.find? (fun kv => kv.1 == a'.id)).map
              (fun kv => kv.2)) A =
          List.filterMap
            (fun a' => (d.find? (fun kv => kv.1 == a'.id)).map (fun kv => kv.2)) A := by
        refine List.filterMap_congr ?_
        intro a' ha'
        have hne : a'.id ≠ a.id := by
          intro he
          have hmem : a'.id ∈ A.map Particle.id := List.mem_map_of_mem Particle.id ha'
          rw [he] at hmem
          exact hAc.1 hmem
        have hff : ((dictPop d a.id).2).find? (fun kv => kv.1 == a'.id) =
            d.find? (fun kv => kv.1 == a'.id) := by
          refine find?_filter_of_imp _ _ d ?_
          intro x hx
          have hx1 : x.1 = a'.id := by simpa using hx
          simp [bne, hx1, hne]
        rw [hff]
      have hfst : b :: List.filterMap
            (fun a' => ((dictPop d a.id).2.find? (fun kv => kv.1 == a'.id)).map
              (fun kv => kv.2)) A =
          List.filterMap
            (fun a' => (d.find? (fun kv => kv.1 == a'.id)).map (fun kv => kv.2)) (a :: A) := by
        rw [List.filterMap_cons]
        have hfa : ((d.find? (fun kv => kv.1 == a.id)).map (fun kv => kv.2)) = some b := hfind
        rw [hfa, hcong]
      have hsnd : List.filter (fun kv => !(A.any (fun a' => a'.id == kv.1)))
            ((dictPop d a.id).2) =
          List.filter (fun kv => !((a :: A).any (fun a' => a'.id == kv.1))) d := by
        have h1 : ((dictPop d a.id).2) = d.filter (fun kv => kv.1 != a.id) := rfl
        rw [h1, List.filter_filter]
        refine List.filter_congr ?_
        intro kv _
        rw [List.any_cons, Bool.not_or, bne_eq_not_beq kv.1 a.id, Bool.and_comm]
      rw [hstep, ih _ hAc.2 hd2]
      exact Prod.ext hfst hsnd

/-- Record with id 421 in list A. -/
def pA6 : Particle := ⟨"D0", 421, 0, 0, 0, 0, 0, 0, 0, 0⟩

/-- First record with id 421 in list B. -/
def qB6a : Particle := ⟨"D0", 421, 1, 0, 0, 0, 0, 0, 0, 0⟩

/-- Second record with id 421 in list B (same id, different mass/line). -/
def qB6b : Particle := ⟨"D0", 421, 2, 0, 0, 0, 0, 0, 0, 1⟩

/-- C6 fails as stated: with duplicate ids in B, `_sort_by` keeps only the
last record per id (`Bdict = {b.id: b for b in B}` overwrites), so `qB6a`,
whose id occurs in A, is dropped entirely instead of being placed. -/
theorem claim_C6_counterexample :
    qB6a.id = pA6.id ∧ qB6a ∈ [qB6a, qB6b] ∧
    PDLDiffTable.sort_by [pA6] [qB6a, qB6b] = [qB6b] ∧
    qB6a ∉ PDLDiffTable.sort_by [pA6] [qB6a, qB6b] := by
  with_unfolding_all decide

/-- C6 (amended): provided both lists have pairwise-distinct ids, ordering
mode `'a'` keeps A unchanged and reorders B so that the records whose id
occurs in A come first, in A's id order, followed by the records of B with
no id-match in A, (stably) sorted by their original line number.  (With
duplicate ids in B the claim fails: only the last record per id survives —
see the counterexample.)  Mode `'b'` is the same with the lists swapped. -/
theorem claim_C6 (A B : List Particle)
    (hA : (A.map Particle.id).Nodup) (hB : (B.map Particle.id).Nodup) :
    PDLDiffTable.sort_by A B =
      A.filterMap (fun a => B.find? (fun b => b.id == a.id)) ++
        List.insertionSort lineLe (B.filter (fun b => !(A.any (fun a => a.id == b.id)))) ∧
    List.Sorted lineLe
      (List.insertionSort lineLe (B.filter (fun b => !(A.any (fun a => a.id == b.id))))) ∧
    (List.insertionSort lineLe
        (B.filter (fun b => !(A.any (fun a => a.id == b.id))))).Perm
      (B.filter (fun b => !(A.any (fun a => a.id == b.id)))) ∧
    (∀ t : PDLDiffTable, t.order = "a" →
      t.orderLists A B = (A, PDLDiffTable.sort_by A B)) := by
  have hmk : mkBdict B = B.map (fun b => (b.id, b)) := mkBdict_eq B hB
  have hkeys : ((mkBdict B).map Prod.fst).Nodup := by
    rw [hmk]
    simpa [List.map_map, Function.comp] using hB
  refine ⟨?_, List.sorted_insertionSort lineLe _, List.perm_insertionSort lineLe _, ?_⟩
  · have hunfold : PDLDiffTable.sort_by A B =
        (popLoop A (mkBdict B)).1 ++
          List.insertionSort lineLe ((popLoop A (mkBdict B)).2.map (fun kv => kv.2)) := rfl
    rw [hunfold, popLoop_eq A (mkBdict B) hA hkeys, hmk]
    have hfst : List.filterMap
          (fun a => ((B.map (fun b => (b.id, b))).find? (fun kv => kv.1 == a.id)).map
            (fun kv => kv.2)) A =
        A.filterMap (fun a => B.find? (fun b => b.id == a.id)) := by
      refine List.filterMap_congr ?_
      intro a _
      rw [List.find?_map, Option.map_map]
      have h1 : ((fun kv : ℤ × Particle => kv.1 == a.id) ∘ fun b => (b.id, b)) =
          (fun b : Particle => b.id == a.id) := rfl
      have h2 : ((fun kv : ℤ × Particle => kv.2) ∘ fun b => (b.id, b)) =
          (fun b : Particle => b) := rfl
      rw [h1, h2, Option.map_id']
    have hsnd : ((B.map (fun b => (b.id, b))).filter
          (fun kv => !(A.any (fun a => a.id == kv.1)))).map (fun kv => kv.2) =
        B.filter (fun b => !(A.any (fun a => a.id == b.id))) := by
      rw [List.filter_map]
      have h1 : ((fun kv : ℤ × Particle => !(A.any (fun a => a.id == kv.1))) ∘
          fun b => (b.id, b)) = (fun b : Particle => !(A.any (fun a => a.id == b.id))) := rfl
      rw [h1, List.map_map]
      have h2 : ((fun kv : ℤ × Particle => kv.2) ∘ fun b => (b.id, b)) =
          (fun b : Particle => b) := rfl
      rw [h2, List.map_id']
    rw [hfst, hsnd]
  · intro t ht
    rw [PDLDiffTable.orderLists, ht]
    rfl

/-- A-side list with distinct ids for the C6 witness. -/
def wA6 : List Particle :=
  [⟨"pi0", 111, 0, 0, 0, 0, 0, 0, 0, 0⟩, ⟨"eta", 221, 0, 0, 0, 0, 0, 0, 0, 1⟩]

/-- B-side list with distinct ids for the C6 witness. -/
def wB6 : List Particle :=
  [⟨"rho", 113, 0, 0, 0, 0, 0, 0, 0, 0⟩, ⟨"eta2", 221, 0, 0, 0, 0, 0, 0, 0, 1⟩]

/-- Witness for the amended C6 at a concrete input. -/
theorem claim_C6_witness :
    ((wA6.map Particle.id).Nodup) ∧ ((wB6.map Particle.id).Nodup) ∧
    (PDLDiffTable.sort_by wA6 wB6 =
        wA6.filterMap (fun a => wB6.find? (fun b => b.id == a.id)) ++
          List.insertionSort lineLe
            (wB6.filter (fun b => !(wA6.any (fun a => a.id == b.id)))) ∧
      List.Sorted lineLe
        (List.insertionSort lineLe
          (wB6.filter (fun b => !(wA6.any (fun a => a.id == b.id))))) ∧
      (List.insertionSort lineLe
          (wB6.filter (fun b => !(wA6.any (fun a => a.id == b.id))))).Perm
        (wB6.filter (fun b => !(wA6.any (fun a => a.id == b.id)))) ∧
      (∀ t : PDLDiffTable, t.order = "a" →
        t.orderLists wA6 wB6 = (wA6, PDLDiffTable.sort_by wA6 wB6))) :=
  ⟨by decide, by decide, claim_C6 wA6 wB6 (by decide) (by decide)⟩

/-! ### `difflib.SequenceMatcher`

`fill` constructs `difflib.SequenceMatcher(a=A, b=B)` with the default
`isjunk=None` and `autojunk=True` and walks `get_opcodes()`.  The matcher
only ever consults elements through `Particle.__eq__`/`__hash__`, i.e.
through the `id` field, so it is embedded over the lists of ids
(`List ℤ`).  With `isjunk=None` the junk set `bjunk` is empty, so the two
junk-extension loops of `find_longest_match` never run and are omitted;
`bpopular` elimination (autojunk) is modelled faithfully in `chainB`. -/

/-- One step of `__chain_b`'s `b2j.setdefault(elt, []).append(i)`. -/
def b2jInsert (m : List (ℤ × List ℕ)) (x : ℤ) (j : ℕ) : List (ℤ × List ℕ) :=
  if m.any (fun kv => kv.1 == x) then
    m.map (fun kv => if kv.1 == x then (kv.1, kv.2 ++ [j]) else kv)
  else m ++ [(x, [j])]

/-- `b2j` mapping each element of `b` to its ascending position list,
before junk/popular elimination. -/
def b2jFull (b : List ℤ) : List (ℤ × List ℕ) :=
  b.enum.foldl (fun m jx => b2jInsert m jx.2 jx.1) []

/-- `__chain_b` with `isjunk=None`, `autojunk=True`: when `len(b) >= 200`,
elements occurring in more than `n // 100 + 1` positions are removed from
`b2j` (the "popular" heuristic). -/
def chainB (b : List ℤ) : List (ℤ × List ℕ) :=
  let b2j := b2jFull b
  if 200 ≤ b.length then
    b2j.filter (fun kv => !(b.length / 100 + 1 < kv.2.length))
  else b2j

/-- `b2j.get(x, [])`. -/
def b2jGet (m : List (ℤ × List ℕ)) (x : ℤ) : List ℕ :=
  ((m.find? (fun kv => kv.1 == x)).map (fun kv => kv.2)).getD []

/-- A `Match(a, b, size)` triple of `difflib`. -/
structure MatchBlock where
  a : ℕ
  b : ℕ
  size : ℕ
deriving DecidableEq

/-- `j2len.get(j, 0)`. -/
def j2lenGet (d : List (ℕ × ℕ)) (j : ℕ) : ℕ :=
  ((d.find? (fun kv => kv.1 == j)).map (fun kv => kv.2)).getD 0

/-- The body of `find_longest_match`'s inner loop at row `i`, column `j`:
`k = j2len.get(j-1, 0) + 1; newj2len[j] = k; update best if k > bestsize`.
(`j2len.get(-1, 0)` is 0 in Python; the `j = 0` guard renders that.) -/
def innerStep (j2len : List (ℕ × ℕ)) (i : ℕ)
    (st : List (ℕ × ℕ) × MatchBlock) (j : ℕ) : List (ℕ × ℕ) × MatchBlock :=
  let k := (if j = 0 then 0 else j2lenGet j2len (j - 1)) + 1
  (st.1 ++ [(j, k)],
   if st.2.size < k then ⟨i + 1 - k, j + 1 - k, k⟩ else st.2)

/-- One row `i` of the DP loop: iterate over `b2j.get(a[i], [])`, skipping
`j < blo` and breaking at `j >= bhi` (the position lists are ascending, so
the break is a `takeWhile`); `newj2len` starts empty and replaces `j2len`
afterwards. -/
def rowStep (a : List ℤ) (b2j : List (ℤ × List ℕ)) (blo bhi : ℕ)
    (st : List (ℕ × ℕ) × MatchBlock) (i : ℕ) : List (ℕ × ℕ) × MatchBlock :=
  let js := match a[i]? with
    | some x => ((b2jGet b2j x).takeWhile (fun j => j < bhi)).filter (fun j => blo ≤ j)
    | none => []
  js.foldl (innerStep st.1 i) ([], st.2)

/-- The DP part of `find_longest_match`: rows `alo, ..., ahi-1`, with
`besti, bestj, bestsize = alo, blo, 0` initially. -/
def dpLoop (a : List ℤ) (b2j : List (ℤ × List ℕ)) (alo ahi blo bhi : ℕ) : MatchBlock :=
  ((List.range' alo (ahi - alo)).foldl (rowStep a b2j blo bhi) ([], ⟨alo, blo, 0⟩)).2

/-- First extension loop of `find_longest_match`: grow the best block
`(ma, mb, sz)` downwards while the adjacent elements match (`bjunk` is
empty).  Structural recursion on `ma`, the quantity the Python `while`
decreases; the guard `alo <= ma` is Python's `besti > alo`, and the
`isSome` guard is vacuous inside the real index range. -/
def extendLow (a b : List ℤ) (alo blo : ℕ) : ℕ → ℕ → ℕ → MatchBlock
  | 0, mb, sz => ⟨0, mb, sz⟩
  | ma + 1, mb, sz =>
    if alo ≤ ma ∧ blo < mb ∧ (a[ma]?).isSome ∧ a[ma]? = b[mb - 1]? then
      extendLow a b alo blo ma (mb - 1) (sz + 1)
    else ⟨ma + 1, mb, sz⟩

/-- Second extension loop: grow the best block upwards.  Structural
recursion on `rem = ahi - (ma + sz)`, the quantity the Python `while`
decreases; `rem > 0` is Python's `besti+bestsize < ahi`. -/
def extendHigh (a b : List ℤ) (bhi : ℕ) (ma mb : ℕ) : ℕ → ℕ → MatchBlock
  | 0, sz => ⟨ma, mb, sz⟩
  | rem + 1, sz =>
    if mb + sz < bhi ∧ (a[ma + sz]?).isSome ∧ a[ma + sz]? = b[mb + sz]? then
      extendHigh a b bhi ma mb rem (sz + 1)
    else ⟨ma, mb, sz⟩

/-- `find_longest_match(alo, ahi, blo, bhi)`: the DP pass followed by the
two (non-junk) extension loops. -/
def find_longest_match (a b : List ℤ) (b2j : List (ℤ × List ℕ))
    (alo ahi blo bhi : ℕ) : MatchBlock :=
  let d := dpLoop a b2j alo ahi blo bhi
  let l := extendLow a b alo blo d.a d.b d.size
  extendHigh a b bhi l.a l.b (ahi - (l.a + l.size)) l.size

/-! ### Containment bounds for `find_longest_match` -/

/-- Bounds satisfied by every `j2len`/`newj2len` entry: keys are in-range
columns, values bounded by the column window and by the number of
processed rows. -/
def DictBound (blo bhi n : ℕ) (d : List (ℕ × ℕ)) : Prop :=
  ∀ kv ∈ d, blo ≤ kv.1 ∧ kv.1 < bhi ∧ kv.2 ≤ kv.1 + 1 - blo ∧ kv.2 ≤ n

/-- The running best block is either still the initial `(alo, blo, 0)` or a
nonempty block contained in `[alo, hi) × [blo, bhi)`. -/
def BestBound (alo blo bhi hi : ℕ) (m : MatchBlock) : Prop :=
  m = ⟨alo, blo, 0⟩ ∨
    (alo ≤ m.a ∧ m.a + m.size ≤ hi ∧ blo ≤ m.b ∧ m.b + m.size ≤ bhi ∧ 0 < m.size)

theorem j2lenGet_bound {blo bhi n : ℕ} {d : List (ℕ × ℕ)}
    (hd : DictBound blo bhi n d) (jj : ℕ) :
    j2lenGet d jj ≤ jj + 1 - blo ∧ j2lenGet d jj ≤ n := by
  rw [j2lenGet]
  cases hf : d.find? (fun kv => kv.1 == jj) with
  | none => simp
  | some kv =>
    have hmem : kv ∈ d := List.mem_of_find?_eq_some hf
    have hkey : kv.1 = jj := by
      have := List.find?_some hf
      simpa using this
    obtain ⟨_, _, hv1, hv2⟩ := hd kv hmem
    rw [hkey] at hv1
    exact ⟨by simpa using hv1, by simpa using hv2⟩

theorem innerFold_bound (old : List (ℕ × ℕ)) (i alo blo bhi n : ℕ)
    (js : List ℕ) (hjs : ∀ j ∈ js, blo ≤ j ∧ j < bhi)
    (hold : DictBound blo bhi n old) (hieq : i = alo + n) :
    ∀ st : List (ℕ × ℕ) × MatchBlock,
      DictBound blo bhi (n + 1) st.1 → BestBound alo blo bhi (i + 1) st.2 →
      DictBound blo bhi (n + 1) (js.foldl (innerStep old i) st).1 ∧
      BestBound alo blo bhi (i + 1) (js.foldl (innerStep old i) st).2 := by
  induction js with
  | nil => exact fun st h1 h2 => ⟨h1, h2⟩
  | cons j js ih =>
    intro st h1 h2
    obtain ⟨hblo, hbhi⟩ := hjs j (List.mem_cons_self j js)
    have hkb : (if j = 0 then 0 else j2lenGet old (j - 1)) + 1 ≤ j + 1 - blo ∧
        (if j = 0 then 0 else j2lenGet old (j - 1)) + 1 ≤ n + 1 := by
      by_cases hj : j = 0
      · subst hj
        have h0 : (if (0 : ℕ) = 0 then 0 else j2lenGet old (0 - 1)) = 0 := if_pos rfl
        rw [h0]
        omega
      · rw [if_neg hj]
        have := j2lenGet_bound hold (j - 1)
        omega
    rw [List.foldl_cons]
    refine ih (fun j' hj' => hjs j' (List.mem_cons_of_mem j hj')) _ ?_ ?_
    · intro kv hkv
      rcases List.mem_append.mp hkv with hm | hone
      · exact h1 kv hm
      · have : kv = (j, (if j = 0 then 0 else j2lenGet old (j - 1)) + 1) := by
          simpa using hone
        rw [this]
        refine ⟨hblo, hbhi, ?_, ?_⟩ <;> omega
    · show BestBound alo blo bhi (i + 1)
        (if st.2.size < (if j = 0 then 0 else j2lenGet old (j - 1)) + 1 then _ else st.2)
      by_cases hup : st.2.size < (if j = 0 then 0 else j2lenGet old (j - 1)) + 1
      · rw [if_pos hup]
        right
        refine ⟨?_, ?_, ?_, ?_, ?_⟩ <;> simp only <;> omega
      · rw [if_neg hup]
        exact h2

theorem BestBound.mono {alo blo bhi hi hi' : ℕ} (h : hi ≤ hi') (m : MatchBlock) :
    BestBound alo blo bhi hi m → BestBound alo blo bhi hi' m := by
  rintro (h1 | h2)
  · exact Or.inl h1
  · right
    exact ⟨h2.1, le_trans h2.2.1 h, h2.2.2⟩

theorem rowStep_bound (a : List ℤ) (b2j : List (ℤ × List ℕ)) (blo bhi alo n : ℕ)
    (st : List (ℕ × ℕ) × MatchBlock)
    (hd : DictBound blo bhi n st.1) (hb : BestBound alo blo bhi (alo + n) st.2) :
    DictBound blo bhi (n + 1) (rowStep a b2j blo bhi st (alo + n)).1 ∧
    BestBound alo blo bhi (alo + n + 1) (rowStep a b2j blo bhi st (alo + n)).2 := by
  have hb' : BestBound alo blo bhi (alo + n + 1) st.2 :=
    BestBound.mono (Nat.le_succ _) st.2 hb
  rw [rowStep]
  cases ha : a[alo + n]? with
  | none =>
    refine innerFold_bound st.1 (alo + n) alo blo bhi n [] ?_ hd rfl ([], st.2) ?_ ?_
    · intro j hj
      simp at hj
    · intro kv hkv
      simp at hkv
    · exact hb'
  | some x =>
    refine innerFold_bound st.1 (alo + n) alo blo bhi n _ ?_ hd rfl ([], st.2) ?_ ?_
    · intro j hj
      have h1 : blo ≤ j := by
        have := (List.mem_filter.mp hj).2
        simpa using this
      have h2 : j < bhi := by
        have := List.mem_takeWhile_imp (List.mem_filter.mp hj).1
        simpa using this
      exact ⟨h1, h2⟩
    · intro kv hkv
      simp at hkv
    · exact hb'

theorem dpLoop_bound (a : List ℤ) (b2j : List (ℤ × List ℕ)) (alo blo bhi : ℕ) (n : ℕ) :
    DictBound blo bhi n
      ((List.range' alo n).foldl (rowStep a b2j blo bhi) ([], ⟨alo, blo, 0⟩)).1 ∧
    BestBound alo blo bhi (alo + n)
      ((List.range' alo n).foldl (rowStep a b2j blo bhi) ([], ⟨alo, blo, 0⟩)).2 := by
  induction n with
  | zero =>
    constructor
    · intro kv hkv
      simp at hkv
    · exact Or.inl rfl
  | succ n ih =>
    have hsplit : List.range' alo (n + 1) = List.range' alo n ++ [alo + n] := by
      have h := @List.range'_concat 1 alo n
      rw [Nat.one_mul] at h
      exact h
    rw [hsplit, List.foldl_append, List.foldl_cons, List.foldl_nil]
    exact rowStep_bound a b2j blo bhi alo n _ ih.1 ih.2

theorem extendLow_bound (a b : List ℤ) (alo blo bhi hi : ℕ) :
    ∀ (ma mb sz : ℕ), BestBound alo blo bhi hi ⟨ma, mb, sz⟩ →
    BestBound alo blo bhi hi (extendLow a b alo blo ma mb sz) := by
  intro ma
  induction ma with
  | zero => exact fun mb sz hm => hm
  | succ ma ih =>
    intro mb sz hm
    rw [extendLow]
    split
    · rename_i h
      refine ih (mb - 1) (sz + 1) ?_
      rcases hm with h1 | h2
      · exfalso
        have := MatchBlock.mk.injEq .. ▸ h1
        simp only [MatchBlock.mk.injEq] at h1
        omega
      · right
        simp only at h2 ⊢
        omega
    · exact hm

theorem extendHigh_bound (a b : List ℤ) (bhi alo blo hi ma mb : ℕ) :
    ∀ (rem sz : ℕ), BestBound alo blo bhi hi ⟨ma, mb, sz⟩ →
    (ma + sz + rem ≤ hi ∨ rem = 0) →
    BestBound alo blo bhi hi (extendHigh a b bhi ma mb rem sz) := by
  intro rem
  induction rem with
  | zero => exact fun sz hm _ => hm
  | succ rem ih =>
    intro sz hm hrem
    have hle : ma + sz + (rem + 1) ≤ hi := by
      rcases hrem with h | h
      · exact h
      · exact absurd h (Nat.succ_ne_zero rem)
    rw [extendHigh]
    split
    · rename_i h
      refine ih (sz + 1) ?_ (Or.inl (by omega))
      rcases hm with h1 | h2
      · right
        simp only [MatchBlock.mk.injEq] at h1
        simp only
        omega
      · right
        simp only at h2 ⊢
        omega
    · exact hm

/-- The block returned by `find_longest_match` is contained in the window:
either the trivial `(alo, blo, 0)` or a nonempty block inside
`[alo, ahi) × [blo, bhi)`. -/
theorem flm_bound (a b : List ℤ) (b2j : List (ℤ × List ℕ)) (alo ahi blo bhi : ℕ) :
    BestBound alo blo bhi ahi (find_longest_match a b b2j alo ahi blo bhi) := by
  have hdp : BestBound alo blo bhi ahi (dpLoop a b2j alo ahi blo bhi) := by
    by_cases hle : alo ≤ ahi
    · have := (dpLoop_bound a b2j alo blo bhi (ahi - alo)).2
      rw [dpLoop]
      have heq : alo + (ahi - alo) = ahi := by omega
      rw [heq] at this
      exact this
    · left
      rw [dpLoop]
      have h0 : ahi - alo = 0 := by omega
      rw [h0]
      rfl
  have hlow : BestBound alo blo bhi ahi
      (extendLow a b alo blo (dpLoop a b2j alo ahi blo bhi).a
        (dpLoop a b2j alo ahi blo bhi).b (dpLoop a b2j alo ahi blo bhi).size) :=
    extendLow_bound a b alo blo bhi ahi _ _ _ hdp
  refine extendHigh_bound a b bhi alo blo ahi _ _ _ _ hlow ?_
  rcases hlow with h1 | h2
  · by_cases hc : alo ≤ ahi
    · left
      rw [h1]
      simp only
      omega
    · right
      rw [h1]
      simp only
      omega
  · left
    omega

/-- Termination measure for `get_matching_blocks`' queue loop. -/
def rectMeasure (q : List (ℕ × ℕ × ℕ × ℕ)) : ℕ :=
  (q.map (fun r => r.2.1 - r.1 + (r.2.2.2 - r.2.2.1) + 1)).sum

/-- The `while queue:` loop of `get_matching_blocks`.  `queue.pop()` takes
the most recently appended rectangle, so the queue is a stack with its top
at the head here; the two sub-rectangles are pushed left-then-right, i.e.
the right one is popped first. -/
def processQueue (a b : List ℤ) (b2j : List (ℤ × List ℕ)) :
    List (ℕ × ℕ × ℕ × ℕ) → List MatchBlock → List MatchBlock
  | [], acc => acc
  | (alo, ahi, blo, bhi) :: rest, acc =>
    let m := find_longest_match a b b2j alo ahi blo bhi
    if hsz : 0 < m.size then
      processQueue a b b2j
        ((if m.a + m.size < ahi ∧ m.b + m.size < bhi then
            [(m.a + m.size, ahi, m.b + m.size, bhi)] else []) ++
         (if alo < m.a ∧ blo < m.b then [(alo, m.a, blo, m.b)] else []) ++
         rest)
        (acc ++ [m])
    else processQueue a b b2j rest acc
termination_by q _ => rectMeasure q
decreasing_by
  · have hbb : BestBound alo blo bhi ahi m := flm_bound a b b2j alo ahi blo bhi
    rcases hbb with h1 | h2
    · exfalso
      rw [h1] at hsz
      exact absurd hsz (lt_irrefl 0)
    · obtain ⟨b1, b2, b3, b4, b5⟩ := h2
      simp only [show find_longest_match a b b2j alo ahi blo bhi = m from rfl]
      simp only [rectMeasure, List.map_append, List.sum_append, List.map_cons,
        List.sum_cons, List.map_nil, List.sum_nil]
      split_ifs <;> simp only [List.map_cons, List.sum_cons, List.map_nil,
        List.sum_nil] <;> omega
  · simp only [rectMeasure, List.map_cons, List.sum_cons]
    omega

/-- The lexicographic order on `Match` triples used by
`matching_blocks.sort()`. -/
def blockLe (x y : MatchBlock) : Prop :=
  x.a < y.a ∨ (x.a = y.a ∧ (x.b < y.b ∨ (x.b = y.b ∧ x.size ≤ y.size)))

instance : DecidableRel blockLe := fun x y =>
  inferInstanceAs
    (Decidable (x.a < y.a ∨ (x.a = y.a ∧ (x.b < y.b ∨ (x.b = y.b ∧ x.size ≤ y.size)))))

instance : IsTotal MatchBlock blockLe :=
  ⟨fun x y => by
    rw [blockLe, blockLe]
    omega⟩

instance : IsTrans MatchBlock blockLe :=
  ⟨fun x y z hxy hyz => by
    rw [blockLe] at hxy hyz ⊢
    omega⟩

/-- The second phase of `get_matching_blocks`: collapse adjacent blocks
(accumulator `(i1, j1, k1)` starts at `(0, 0, 0)` and a block is emitted
only when nonempty). -/
def collapseLoop (i1 j1 k1 : ℕ) : List MatchBlock → List MatchBlock
  | [] => if 0 < k1 then [⟨i1, j1, k1⟩] else []
  | m :: rest =>
    if i1 + k1 = m.a ∧ j1 + k1 = m.b then collapseLoop i1 j1 (k1 + m.size) rest
    else (if 0 < k1 then [⟨i1, j1, k1⟩] else []) ++ collapseLoop m.a m.b m.size rest

/-- `get_matching_blocks()`: queue phase, lexicographic sort, adjacency
collapse, and the `(la, lb, 0)` sentinel. -/
def get_matching_blocks (a b : List ℤ) : List MatchBlock :=
  let blocks := List.insertionSort blockLe
    (processQueue a b (chainB b) [(0, a.length, 0, b.length)] [])
  collapseLoop 0 0 0 blocks ++ [⟨a.length, b.length, 0⟩]

/-- One `(tag, i1, i2, j1, j2)` opcode. -/
structure OpCode where
  tag : String
  i1 : ℕ
  i2 : ℕ
  j1 : ℕ
  j2 : ℕ
deriving DecidableEq

/-- The loop of `get_opcodes()`: walk the matching blocks, emitting a
`replace`/`delete`/`insert` opcode for the gap before each block and an
`equal` opcode for the block itself when nonempty. -/
def opcodesLoop (i j : ℕ) : List MatchBlock → List OpCode
  | [] => []
  | m :: rest =>
    (if i < m.a ∧ j < m.b then [⟨"replace", i, m.a, j, m.b⟩]
     else if i < m.a then [⟨"delete", i, m.a, j, m.b⟩]
     else if j < m.b then [⟨"insert", i, m.a, j, m.b⟩]
     else []) ++
    (if 0 < m.size then [⟨"equal", m.a, m.a + m.size, m.b, m.b + m.size⟩] else []) ++
    opcodesLoop (m.a + m.size) (m.b + m.size) rest

/-- `get_opcodes()` of `SequenceMatcher(a=A, b=B)`. -/
def get_opcodes (a b : List ℤ) : List OpCode :=
  opcodesLoop 0 0 (get_matching_blocks a b)

theorem processQueue_nil (a b : List ℤ) (b2j : List (ℤ × List ℕ)) (acc : List MatchBlock) :
    processQueue a b b2j [] acc = acc := by
  rw [processQueue]

theorem processQueue_cons (a b : List ℤ) (b2j : List (ℤ × List ℕ))
    (alo ahi blo bhi : ℕ) (rest : List (ℕ × ℕ × ℕ × ℕ)) (acc : List MatchBlock) :
    processQueue a b b2j ((alo, ahi, blo, bhi) :: rest) acc =
      if 0 < (find_longest_match a b b2j alo ahi blo bhi).size then
        processQueue a b b2j
          ((if (find_longest_match a b b2j alo ahi blo bhi).a +
                (find_longest_match a b b2j alo ahi blo bhi).size < ahi ∧
              (find_longest_match a b b2j alo ahi blo bhi).b +
                (find_longest_match a b b2j alo ahi blo bhi).size < bhi then
              [((find_longest_match a b b2j alo ahi blo bhi).a +
                  (find_longest_match a b b2j alo ahi blo bhi).size, ahi,
                (find_longest_match a b b2j alo ahi blo bhi).b +
                  (find_longest_match a b b2j alo ahi blo bhi).size, bhi)]
            else []) ++
           (if alo < (find_longest_match a b b2j alo ahi blo bhi).a ∧
              blo < (find_longest_match a b b2j alo ahi blo bhi).b then
              [(alo, (find_longest_match a b b2j alo ahi blo bhi).a, blo,
                (find_longest_match a b b2j alo ahi blo bhi).b)]
            else []) ++ rest)
          (acc ++ [find_longest_match a b b2j alo ahi blo bhi])
      else processQueue a b b2j rest acc := by
  rw [processQueue]
  rfl

/-- `(i, j, k)` is a matching block of `a` against `b` inside the window
`[alo, ahi) × [blo, bhi)`: `a[i:i+k] == b[j:j+k]` elementwise (under the
id-based equality the matcher uses). -/
def matchIn (a b : List ℤ) (alo ahi blo bhi i j k : ℕ) : Prop :=
  alo ≤ i ∧ i + k ≤ ahi ∧ blo ≤ j ∧ j + k ≤ bhi ∧
    ∀ t, t < k → a[i + t]? = b[j + t]? ∧ (a[i + t]?).isSome

instance (a b : List ℤ) (alo ahi blo bhi i j k : ℕ) :
    Decidable (matchIn a b alo ahi blo bhi i j k) :=
  decidable_of_iff (alo ≤ i ∧ i + k ≤ ahi ∧ blo ≤ j ∧ j + k ≤ bhi ∧
    ∀ t, t < k → a[i + t]? = b[j + t]? ∧ (a[i + t]?).isSome) Iff.rfl

/-- The id list of file A in the C5 counterexample. -/
def aC5 : List ℤ := [7, 7, 7, 7]

/-- The id list of file B in the C5 counterexample: 200 records, 199 of
them with id 7 — id 7 is "popular" (more than `200 // 100 + 1 = 3`
occurrences), so autojunk removes it from `b2j`. -/
def bC5 : List ℤ := [5] ++ List.replicate 199 7

/-- C5 fails as stated: `fill` leaves `autojunk=True`, so with
`len(B) >= 200` the popular id 7 is excluded from matching consideration
(`b2j` loses it), and although a matching block of size 4 exists
(`a[0:4] == b[1:5]`), the matcher selects no nonzero block at all and
reports the whole lists as one `replace`. -/
theorem claim_C5_counterexample :
    bC5.length = 200 ∧ (7 : ℤ) ∈ aC5 ∧ (7 : ℤ) ∈ bC5 ∧
    b2jGet (chainB bC5) 7 = [] ∧
    matchIn aC5 bC5 0 aC5.length 0 bC5.length 0 1 4 ∧
    get_matching_blocks aC5 bC5 = [⟨4, 200, 0⟩] ∧
    get_opcodes aC5 bC5 = [⟨"replace", 0, 4, 0, 200⟩] := by
  have hflm : find_longest_match aC5 bC5 (chainB bC5) 0 4 0 200 = ⟨0, 0, 0⟩ := by
    set_option maxRecDepth 40000 in decide
  have hpq : processQueue aC5 bC5 (chainB bC5) [(0, 4, 0, 200)] [] = [] := by
    rw [processQueue_cons, if_neg (by rw [hflm]; decide), processQueue_nil]
  have hgmb : get_matching_blocks aC5 bC5 = [⟨4, 200, 0⟩] := by
    have h : get_matching_blocks aC5 bC5 =
        collapseLoop 0 0 0 (List.insertionSort blockLe
          (processQueue aC5 bC5 (chainB bC5) [(0, 4, 0, 200)] [])) ++ [⟨4, 200, 0⟩] := rfl
    rw [h, hpq]
    decide
  refine ⟨?_, by decide, ?_, ?_, by decide, hgmb, ?_⟩
  · set_option maxRecDepth 40000 in decide
  · set_option maxRecDepth 40000 in decide
  · set_option maxRecDepth 40000 in decide
  · rw [get_opcodes, hgmb]
    decide

/-! ### C4: the opcodes tile both lists -/

/-- Python slice `l[i:j]`. -/
def pyslice {α : Type} (l : List α) (i j : ℕ) : List α := (l.take j).drop i

theorem pyslice_append {α : Type} (l : List α) (i m j : ℕ)
    (h1 : i ≤ m) (h2 : m ≤ j) (h3 : j ≤ l.length) :
    pyslice l i m ++ pyslice l m j = pyslice l i j := by
  have hm : m ≤ l.length := le_trans h2 h3
  have hsplit : l.take j = l.take m ++ (l.take j).drop m := by
    have : (l.take j).take m = l.take m := by
      rw [List.take_take, min_eq_left h2]
    conv_lhs => rw [← List.take_append_drop m (l.take j)]
    rw [this]
  rw [pyslice, pyslice, pyslice]
  conv_rhs => rw [hsplit]
  rw [List.drop_append_of_le_length (by
    rw [List.length_take]
    omega)]

theorem pyslice_empty {α : Type} (l : List α) (i : ℕ) : pyslice l i i = [] := by
  rw [pyslice]
  refine List.drop_eq_nil_of_le ?_
  rw [List.length_take]
  omega

/-- "Strictly before in both coordinates" on rectangles
`(alo, ahi, blo, bhi)`. -/
def rectBefore (X Y : ℕ × ℕ × ℕ × ℕ) : Prop :=
  X.2.1 ≤ Y.1 ∧ X.2.2.2 ≤ Y.2.2.1

/-- Two rectangles are staircase-compatible when one is before the other. -/
def rectCompat (X Y : ℕ × ℕ × ℕ × ℕ) : Prop := rectBefore X Y ∨ rectBefore Y X

theorem rectCompat_symm {X Y : ℕ × ℕ × ℕ × ℕ} (h : rectCompat X Y) : rectCompat Y X :=
  h.symm

/-- Rectangle containment. -/
def subRect (X R : ℕ × ℕ × ℕ × ℕ) : Prop :=
  R.1 ≤ X.1 ∧ X.2.1 ≤ R.2.1 ∧ R.2.2.1 ≤ X.2.2.1 ∧ X.2.2.2 ≤ R.2.2.2

theorem subRect_trans {X R S : ℕ × ℕ × ℕ × ℕ} (h1 : subRect X R) (h2 : subRect R S) :
    subRect X S := by
  rw [subRect] at *
  omega

theorem rectCompat_of_sub {X R Y : ℕ × ℕ × ℕ × ℕ} (hx : subRect X R)
    (hc : rectCompat R Y) : rectCompat X Y := by
  rw [subRect] at hx
  rcases hc with h | h <;> rw [rectBefore] at h
  · left
    rw [rectBefore]
    omega
  · right
    rw [rectBefore]
    omega

/-- The rectangle occupied by a matching block. -/
def blockRect (m : MatchBlock) : ℕ × ℕ × ℕ × ℕ := (m.a, m.a + m.size, m.b, m.b + m.size)

/-- "Chainable" order on blocks: the first ends at or before the second
starts, in both coordinates. -/
def chainRel (x y : MatchBlock) : Prop :=
  x.a + x.size ≤ y.a ∧ x.b + x.size ≤ y.b

theorem processQueue_blocks (a b : List ℤ) (b2j : List (ℤ × List ℕ))
    (root : ℕ × ℕ × ℕ × ℕ) :
    ∀ (q : List (ℕ × ℕ × ℕ × ℕ)) (acc : List MatchBlock),
      (∀ r ∈ q, subRect r root) →
      (∀ m ∈ acc, 0 < m.size ∧ subRect (blockRect m) root) →
      List.Pairwise rectCompat (q ++ acc.map blockRect) →
      (∀ m ∈ processQueue a b b2j q acc, 0 < m.size ∧ subRect (blockRect m) root) ∧
      List.Pairwise rectCompat ((processQueue a b b2j q acc).map blockRect) := by
  intro q acc
  induction q, acc using processQueue.induct a b b2j with
  | case1 acc =>
    intro _ hacc hpair
    rw [processQueue_nil]
    refine ⟨hacc, ?_⟩
    simpa using hpair
  | case3 alo ahi blo bhi rest acc m hsz ih =>
    intro hq hacc hpair
    have hp : List.Pairwise rectCompat ((alo, ahi, blo, bhi) :: (rest ++ acc.map blockRect)) := by
      rwa [List.cons_append] at hpair
    have hstep : processQueue a b b2j ((alo, ahi, blo, bhi) :: rest) acc =
        processQueue a b b2j rest acc := by
      rw [processQueue_cons,
        if_neg (show ¬ 0 < (find_longest_match a b b2j alo ahi blo bhi).size from hsz)]
    rw [hstep]
    exact ih (fun r hr => hq r (List.mem_cons_of_mem _ hr)) hacc (List.pairwise_cons.mp hp).2
  | case2 alo ahi blo bhi rest acc m hsz ih =>
    intro hq hacc hpair
    have hheadsub : subRect (alo, ahi, blo, bhi) root := hq _ (List.mem_cons_self _ _)
    have hbb : BestBound alo blo bhi ahi m := flm_bound a b b2j alo ahi blo bhi
    rcases hbb with h0 | hbnd
    · exfalso
      rw [h0] at hsz
      exact absurd hsz (lt_irrefl 0)
    obtain ⟨hma, hmsa, hmb, hmsb, hpos⟩ := hbnd
    have hmsub : subRect (blockRect m) (alo, ahi, blo, bhi) := ⟨hma, hmsa, hmb, hmsb⟩
    have hp : List.Pairwise rectCompat
        ((alo, ahi, blo, bhi) :: (rest ++ acc.map blockRect)) := by
      rwa [List.cons_append] at hpair
    have hheadcompat : ∀ y ∈ rest ++ acc.map blockRect, rectCompat (alo, ahi, blo, bhi) y :=
      (List.pairwise_cons.mp hp).1
    have holdpair : List.Pairwise rectCompat (rest ++ acc.map blockRect) :=
      (List.pairwise_cons.mp hp).2
    have hstep : processQueue a b b2j ((alo, ahi, blo, bhi) :: rest) acc =
        processQueue a b b2j
          ((if m.a + m.size < ahi ∧ m.b + m.size < bhi then
              [(m.a + m.size, ahi, m.b + m.size, bhi)] else []) ++
           (if alo < m.a ∧ blo < m.b then [(alo, m.a, blo, m.b)] else []) ++ rest)
          (acc ++ [m]) := by
      rw [processQueue_cons,
        if_pos (show 0 < (find_longest_match a b b2j alo ahi blo bhi).size from hsz)]
    rw [hstep]
    have hq2mem : ∀ r ∈ (if m.a + m.size < ahi ∧ m.b + m.size < bhi then
        [(m.a + m.size, ahi, m.b + m.size, bhi)] else []),
        r = (m.a + m.size, ahi, m.b + m.size, bhi) := by
      split_ifs <;> intro r hr <;> simp at hr
      exact hr
    have hq1mem : ∀ r ∈ (if alo < m.a ∧ blo < m.b then [(alo, m.a, blo, m.b)] else []),
        r = (alo, m.a, blo, m.b) := by
      split_ifs <;> intro r hr <;> simp at hr
      exact hr
    have hq2sub : ∀ r ∈ (if m.a + m.size < ahi ∧ m.b + m.size < bhi then
        [(m.a + m.size, ahi, m.b + m.size, bhi)] else []), subRect r (alo, ahi, blo, bhi) := by
      intro r hr
      rw [hq2mem r hr, subRect]
      refine ⟨?_, le_refl _, ?_, le_refl _⟩ <;> simp only <;> omega
    have hq1sub : ∀ r ∈ (if alo < m.a ∧ blo < m.b then [(alo, m.a, blo, m.b)] else []),
        subRect r (alo, ahi, blo, bhi) := by
      intro r hr
      rw [hq1mem r hr, subRect]
      refine ⟨le_refl _, ?_, le_refl _, ?_⟩ <;> simp only <;> omega
    refine ih ?_ ?_ ?_
    · intro r hr
      rcases List.mem_append.mp hr with h12 | hrest
      · rcases List.mem_append.mp h12 with h2 | h1
        · exact subRect_trans (hq2sub r h2) hheadsub
        · exact subRect_trans (hq1sub r h1) hheadsub
      · exact hq r (List.mem_cons_of_mem _ hrest)
    · intro mm hmm
      rcases List.mem_append.mp hmm with hold | hnew
      · exact hacc mm hold
      · have : mm = m := by simpa using hnew
        rw [this]
        exact ⟨hsz, subRect_trans hmsub hheadsub⟩
    · -- Pairwise over the new queue plus the extended accumulator.
      -- The new items (the two pushed rectangles and the block) all sit
      -- inside the popped rectangle, hence are compatible with every old
      -- item; among themselves they form a staircase.
      have hnewsub : ∀ x ∈ (if m.a + m.size < ahi ∧ m.b + m.size < bhi then
          [(m.a + m.size, ahi, m.b + m.size, bhi)] else []) ++
          (if alo < m.a ∧ blo < m.b then [(alo, m.a, blo, m.b)] else []) ++
          [blockRect m], subRect x (alo, ahi, blo, bhi) := by
        intro x hx
        rcases List.mem_append.mp hx with h12 | hbm
        · rcases List.mem_append.mp h12 with h2 | h1
          · exact hq2sub x h2
          · exact hq1sub x h1
        · rw [show x = blockRect m by simpa using hbm]
          exact hmsub
      have hnewcross : ∀ x ∈ (if m.a + m.size < ahi ∧ m.b + m.size < bhi then
          [(m.a + m.size, ahi, m.b + m.size, bhi)] else []) ++
          (if alo < m.a ∧ blo < m.b then [(alo, m.a, blo, m.b)] else []) ++
          [blockRect m], ∀ y ∈ rest ++ acc.map blockRect, rectCompat x y :=
        fun x hx y hy => rectCompat_of_sub (hnewsub x hx) (hheadcompat y hy)
      have hnewpair : List.Pairwise rectCompat
          ((if m.a + m.size < ahi ∧ m.b + m.size < bhi then
            [(m.a + m.size, ahi, m.b + m.size, bhi)] else []) ++
           (if alo < m.a ∧ blo < m.b then [(alo, m.a, blo, m.b)] else []) ++
           [blockRect m]) := by
        rw [List.pairwise_append]
        refine ⟨?_, by simp, ?_⟩
        · rw [List.pairwise_append]
          refine ⟨by split_ifs <;> simp, by split_ifs <;> simp, ?_⟩
          intro x hx y hy
          rw [hq2mem x hx, hq1mem y hy]
          right
          rw [rectBefore]
          refine ⟨?_, ?_⟩ <;> simp only <;> omega
        · intro x hx y hy
          rw [show y = blockRect m by simpa using hy]
          rcases List.mem_append.mp hx with h2 | h1
          · rw [hq2mem x h2]
            right
            rw [rectBefore, blockRect]
            exact ⟨le_refl _, le_refl _⟩
          · rw [hq1mem x h1]
            left
            rw [rectBefore, blockRect]
            exact ⟨le_refl _, le_refl _⟩
      have hperm : (((if m.a + m.size < ahi ∧ m.b + m.size < bhi then
            [(m.a + m.size, ahi, m.b + m.size, bhi)] else []) ++
           (if alo < m.a ∧ blo < m.b then [(alo, m.a, blo, m.b)] else []) ++ rest) ++
           (acc ++ [m]).map blockRect).Perm
          (((if m.a + m.size < ahi ∧ m.b + m.size < bhi then
            [(m.a + m.size, ahi, m.b + m.size, bhi)] else []) ++
           (if alo < m.a ∧ blo < m.b then [(alo, m.a, blo, m.b)] else []) ++
           [blockRect m]) ++ (rest ++ acc.map blockRect)) := by
        simp only [List.map_append, List.map_cons, List.map_nil, List.append_assoc]
        refine List.Perm.append_left _ (List.Perm.append_left _ ?_)
        have h1 : rest ++ (acc.map blockRect ++ [blockRect m] ++ []) =
            (rest ++ acc.map blockRect) ++ ([blockRect m] ++ []) := by
          simp [List.append_assoc]
        have h2 : rest ++ (acc.map blockRect ++ ([blockRect m] ++ [])) =
            (rest ++ acc.map blockRect) ++ [blockRect m] := by
          simp [List.append_assoc]
        refine List.Perm.trans (List.Perm.of_eq h2) ?_
        exact List.perm_append_singleton _ _
      refine (List.Perm.pairwise_iff (fun h => rectCompat_symm h) hperm).mpr ?_
      rw [List.pairwise_append]
      exact ⟨hnewpair, holdpair, hnewcross⟩

/-- Chain-tiling condition: starting at position `(i, j)`, each block begins
at or after the current position and advances it to the block's end. -/
def chainOK (i j : ℕ) : List MatchBlock → Prop
  | [] => True
  | m :: rest => i ≤ m.a ∧ j ≤ m.b ∧ chainOK (m.a + m.size) (m.b + m.size) rest

/-- Final position of a chain of blocks in the first coordinate. -/
def chainEndA (i : ℕ) : List MatchBlock → ℕ
  | [] => i
  | m :: rest => chainEndA (m.a + m.size) rest

/-- Final position of a chain of blocks in the second coordinate. -/
def chainEndB (j : ℕ) : List MatchBlock → ℕ
  | [] => j
  | m :: rest => chainEndB (m.b + m.size) rest

theorem chainOK_mono : ∀ (l : List MatchBlock) (i j i' j' : ℕ),
    i ≤ i' → j ≤ j' → chainOK i' j' l → chainOK i j l := by
  intro l
  cases l with
  | nil => intro i j i' j' _ _ _; trivial
  | cons m rest =>
    intro i j i' j' hi hj h
    obtain ⟨h1, h2, h3⟩ := h
    exact ⟨le_trans hi h1, le_trans hj h2, h3⟩

theorem chainOK_of_pairwise : ∀ (l : List MatchBlock) (i j : ℕ),
    List.Pairwise chainRel l → (∀ m ∈ l, i ≤ m.a ∧ j ≤ m.b) → chainOK i j l := by
  intro l
  induction l with
  | nil => intro i j _ _; trivial
  | cons m rest ih =>
    intro i j hp hmem
    obtain ⟨hhead, hrest⟩ := List.pairwise_cons.mp hp
    have hm := hmem m (List.mem_cons_self m rest)
    exact ⟨hm.1, hm.2, ih _ _ hrest (fun m' hm' => hhead m' hm')⟩

/-- Blocks that are lexicographically sorted, pairwise staircase-compatible
as rectangles and of positive size form a chain. -/
theorem pairwise_chainRel_of_sorted (l : List MatchBlock)
    (hsort : List.Sorted blockLe l)
    (hcompat : List.Pairwise rectCompat (l.map blockRect))
    (hpos : ∀ m ∈ l, 0 < m.size) :
    List.Pairwise chainRel l := by
  have hc := List.pairwise_map.mp hcompat
  have hand := List.Pairwise.and hsort hc
  refine List.Pairwise.imp_of_mem ?_ hand
  intro x y hx hy hxy
  obtain ⟨hle, hcc⟩ := hxy
  have hpy := hpos y hy
  rw [blockLe] at hle
  rw [chainRel]
  rcases hcc with hb | hb <;> simp only [rectBefore, blockRect] at hb <;> omega

theorem chainEndA_ge : ∀ (l : List MatchBlock) (i j : ℕ),
    chainOK i j l → i ≤ chainEndA i l := by
  intro l
  induction l with
  | nil =>
    intro i j _
    simp [chainEndA]
  | cons m rest ih =>
    intro i j hok
    obtain ⟨hia, _, hrest⟩ := hok
    rw [chainEndA]
    have := ih (m.a + m.size) (m.b + m.size) hrest
    omega

theorem chainEndB_ge : ∀ (l : List MatchBlock) (i j : ℕ),
    chainOK i j l → j ≤ chainEndB j l := by
  intro l
  induction l with
  | nil =>
    intro i j _
    simp [chainEndB]
  | cons m rest ih =>
    intro i j hok
    obtain ⟨_, hjb, hrest⟩ := hok
    rw [chainEndB]
    have := ih (m.a + m.size) (m.b + m.size) hrest
    omega

theorem chainEndA_append (s : MatchBlock) :
    ∀ (l : List MatchBlock) (i : ℕ), chainEndA i (l ++ [s]) = s.a + s.size := by
  intro l
  induction l with
  | nil =>
    intro i
    rw [List.nil_append, chainEndA, chainEndA]
  | cons m rest ih =>
    intro i
    rw [List.cons_append, chainEndA]
    exact ih _

theorem chainEndB_append (s : MatchBlock) :
    ∀ (l : List MatchBlock) (i : ℕ), chainEndB i (l ++ [s]) = s.b + s.size := by
  intro l
  induction l with
  | nil =>
    intro i
    rw [List.nil_append, chainEndB, chainEndB]
  | cons m rest ih =>
    intro i
    rw [List.cons_append, chainEndB]
    exact ih _

/-- Adjacency collapsing keeps the chain property: given a chained input
whose blocks end within `(la, lb)`, the collapsed list followed by the
`(la, lb, 0)` sentinel is a chain from `(i1, j1)`. -/
theorem collapseLoop_chain (la lb : ℕ) :
    ∀ (l : List MatchBlock) (i1 j1 k1 : ℕ),
      chainOK (i1 + k1) (j1 + k1) l →
      (∀ m ∈ l, m.a + m.size ≤ la ∧ m.b + m.size ≤ lb) →
      i1 + k1 ≤ la → j1 + k1 ≤ lb →
      chainOK i1 j1 (collapseLoop i1 j1 k1 l ++ [⟨la, lb, 0⟩]) := by
  intro l
  induction l with
  | nil =>
    intro i1 j1 k1 _ _ hla hlb
    rw [collapseLoop]
    by_cases hk : 0 < k1
    · rw [if_pos hk, List.cons_append, List.nil_append]
      exact ⟨le_refl _, le_refl _, hla, hlb, trivial⟩
    · rw [if_neg hk, List.nil_append]
      exact ⟨show i1 ≤ la by omega, show j1 ≤ lb by omega, trivial⟩
  | cons m rest ih =>
    intro i1 j1 k1 hok hmem hla hlb
    obtain ⟨hia, hjb, hrest⟩ := hok
    have hm := hmem m (List.mem_cons_self m rest)
    have hmem' : ∀ m' ∈ rest, m'.a + m'.size ≤ la ∧ m'.b + m'.size ≤ lb :=
      fun m' hm' => hmem m' (List.mem_cons_of_mem _ hm')
    rw [collapseLoop]
    by_cases hadj : i1 + k1 = m.a ∧ j1 + k1 = m.b
    · rw [if_pos hadj]
      have h1 : i1 + (k1 + m.size) = m.a + m.size := by omega
      have h2 : j1 + (k1 + m.size) = m.b + m.size := by omega
      exact ih i1 j1 (k1 + m.size) (by rw [h1, h2]; exact hrest) hmem'
        (by omega) (by omega)
    · rw [if_neg hadj]
      have htail := ih m.a m.b m.size hrest hmem' hm.1 hm.2
      by_cases hk : 0 < k1
      · rw [if_pos hk, List.cons_append, List.nil_append]
        exact ⟨le_refl _, le_refl _, chainOK_mono _ _ _ _ _ hia hjb htail⟩
      · rw [if_neg hk, List.nil_append]
        exact chainOK_mono _ _ _ _ _ (by omega) (by omega) htail

/-- Walking a chain of blocks, the A-side spans of the non-`insert` opcodes
tile `A` from position `i` to the chain's end. -/
theorem opcodesLoop_coverA {α : Type} (A : List α) :
    ∀ (l : List MatchBlock) (i j : ℕ), chainOK i j l → chainEndA i l ≤ A.length →
      (((opcodesLoop i j l).filter fun op => op.tag != "insert").flatMap
        fun op => pyslice A op.i1 op.i2) = pyslice A i (chainEndA i l) := by
  intro l
  induction l with
  | nil =>
    intro i j _ _
    rw [opcodesLoop, chainEndA, List.filter_nil, List.flatMap_nil, pyslice_empty]
  | cons m rest ih =>
    intro i j hok hlen
    obtain ⟨hia, hjb, hrest⟩ := hok
    have hend := chainEndA_ge rest (m.a + m.size) (m.b + m.size) hrest
    rw [chainEndA] at hlen ⊢
    rw [opcodesLoop, List.filter_append, List.filter_append,
      List.flatMap_append, List.flatMap_append,
      ih (m.a + m.size) (m.b + m.size) hrest hlen]
    have hgap : ((List.filter (fun op => op.tag != "insert")
        (if i < m.a ∧ j < m.b then [⟨"replace", i, m.a, j, m.b⟩]
         else if i < m.a then [⟨"delete", i, m.a, j, m.b⟩]
         else if j < m.b then [⟨"insert", i, m.a, j, m.b⟩]
         else ([] : List OpCode))).flatMap fun op => pyslice A op.i1 op.i2) =
        pyslice A i m.a := by
      by_cases h1 : i < m.a ∧ j < m.b
      · rw [if_pos h1]
        show pyslice A i m.a ++ [] = pyslice A i m.a
        rw [List.append_nil]
      · rw [if_neg h1]
        by_cases h2 : i < m.a
        · rw [if_pos h2]
          show pyslice A i m.a ++ [] = pyslice A i m.a
          rw [List.append_nil]
        · have hi : i = m.a := by omega
          rw [hi, pyslice_empty, if_neg (lt_irrefl m.a)]
          by_cases h3 : j < m.b
          · rw [if_pos h3]
            rfl
          · rw [if_neg h3]
            rfl
    have heq : ((List.filter (fun op => op.tag != "insert")
        (if 0 < m.size then [⟨"equal", m.a, m.a + m.size, m.b, m.b + m.size⟩]
         else ([] : List OpCode))).flatMap fun op => pyslice A op.i1 op.i2) =
        pyslice A m.a (m.a + m.size) := by
      by_cases hs : 0 < m.size
      · rw [if_pos hs]
        show pyslice A m.a (m.a + m.size) ++ [] = pyslice A m.a (m.a + m.size)
        rw [List.append_nil]
      · rw [if_neg hs]
        have hz : m.size = 0 := by omega
        rw [hz, Nat.add_zero, pyslice_empty]
        rfl
    rw [hgap, heq,
      pyslice_append A i m.a (m.a + m.size) hia (Nat.le_add_right _ _) (by omega),
      pyslice_append A i (m.a + m.size) _ (by omega) hend hlen]

/-- Walking a chain of blocks, the B-side spans of the non-`delete` opcodes
tile `B` from position `j` to the chain's end. -/
theorem opcodesLoop_coverB {α : Type} (B : List α) :
    ∀ (l : List MatchBlock) (i j : ℕ), chainOK i j l → chainEndB j l ≤ B.length →
      (((opcodesLoop i j l).filter fun op => op.tag != "delete").flatMap
        fun op => pyslice B op.j1 op.j2) = pyslice B j (chainEndB j l) := by
  intro l
  induction l with
  | nil =>
    intro i j _ _
    rw [opcodesLoop, chainEndB, List.filter_nil, List.flatMap_nil, pyslice_empty]
  | cons m rest ih =>
    intro i j hok hlen
    obtain ⟨hia, hjb, hrest⟩ := hok
    have hend := chainEndB_ge rest (m.a + m.size) (m.b + m.size) hrest
    rw [chainEndB] at hlen ⊢
    rw [opcodesLoop, List.filter_append, List.filter_append,
      List.flatMap_append, List.flatMap_append,
      ih (m.a + m.size) (m.b + m.size) hrest hlen]
    have hgap : ((List.filter (fun op => op.tag != "delete")
        (if i < m.a ∧ j < m.b then [⟨"replace", i, m.a, j, m.b⟩]
         else if i < m.a then [⟨"delete", i, m.a, j, m.b⟩]
         else if j < m.b then [⟨"insert", i, m.a, j, m.b⟩]
         else ([] : List OpCode))).flatMap fun op => pyslice B op.j1 op.j2) =
        pyslice B j m.b := by
      by_cases h1 : i < m.a ∧ j < m.b
      · rw [if_pos h1]
        show pyslice B j m.b ++ [] = pyslice B j m.b
        rw [List.append_nil]
      · rw [if_neg h1]
        by_cases h2 : i < m.a
        · rw [if_pos h2]
          have hj : j = m.b := by omega
          rw [hj, pyslice_empty]
          rfl
        · by_cases h3 : j < m.b
          · rw [if_neg h2, if_pos h3]
            show pyslice B j m.b ++ [] = pyslice B j m.b
            rw [List.append_nil]
          · rw [if_neg h2, if_neg h3]
            have hj : j = m.b := by omega
            rw [hj, pyslice_empty]
            rfl
    have heq : ((List.filter (fun op => op.tag != "delete")
        (if 0 < m.size then [⟨"equal", m.a, m.a + m.size, m.b, m.b + m.size⟩]
         else ([] : List OpCode))).flatMap fun op => pyslice B op.j1 op.j2) =
        pyslice B m.b (m.b + m.size) := by
      by_cases hs : 0 < m.size
      · rw [if_pos hs]
        show pyslice B m.b (m.b + m.size) ++ [] = pyslice B m.b (m.b + m.size)
        rw [List.append_nil]
      · rw [if_neg hs]
        have hz : m.size = 0 := by omega
        rw [hz, Nat.add_zero, pyslice_empty]
        rfl
    rw [hgap, heq,
      pyslice_append B j m.b (m.b + m.size) hjb (Nat.le_add_right _ _) (by omega),
      pyslice_append B j (m.b + m.size) _ (by omega) hend hlen]

/-- The final block list of `get_matching_blocks` is a chain starting at
`(0, 0)` and ending exactly at `(a.length, b.length)`. -/
theorem gmb_chainOK (a b : List ℤ) :
    chainOK 0 0 (get_matching_blocks a b) ∧
    chainEndA 0 (get_matching_blocks a b) = a.length ∧
    chainEndB 0 (get_matching_blocks a b) = b.length := by
  have hq0 : ∀ r ∈ [((0, a.length, 0, b.length) : ℕ × ℕ × ℕ × ℕ)],
      subRect r (0, a.length, 0, b.length) := by
    intro r hr
    rw [show r = ((0, a.length, 0, b.length) : ℕ × ℕ × ℕ × ℕ) by simpa using hr]
    exact ⟨le_refl _, le_refl _, le_refl _, le_refl _⟩
  obtain ⟨hfacts, hcompat⟩ := processQueue_blocks a b (chainB b) (0, a.length, 0, b.length)
    [(0, a.length, 0, b.length)] [] hq0 (by intro m hm; simp at hm) (by simp)
  have hperm : (List.insertionSort blockLe
      (processQueue a b (chainB b) [(0, a.length, 0, b.length)] [])).Perm
      (processQueue a b (chainB b) [(0, a.length, 0, b.length)] []) :=
    List.perm_insertionSort blockLe _
  have hsorted : List.Sorted blockLe (List.insertionSort blockLe
      (processQueue a b (chainB b) [(0, a.length, 0, b.length)] [])) :=
    List.sorted_insertionSort blockLe _
  have hcompat2 : List.Pairwise rectCompat ((List.insertionSort blockLe
      (processQueue a b (chainB b) [(0, a.length, 0, b.length)] [])).map blockRect) :=
    (List.Perm.pairwise_iff (fun h => rectCompat_symm h) (hperm.map blockRect)).mpr hcompat
  have hpos : ∀ m ∈ List.insertionSort blockLe
      (processQueue a b (chainB b) [(0, a.length, 0, b.length)] []), 0 < m.size :=
    fun m hm => (hfacts m (hperm.mem_iff.mp hm)).1
  have hbounds : ∀ m ∈ List.insertionSort blockLe
      (processQueue a b (chainB b) [(0, a.length, 0, b.length)] []),
      m.a + m.size ≤ a.length ∧ m.b + m.size ≤ b.length := by
    intro m hm
    have h := (hfacts m (hperm.mem_iff.mp hm)).2
    simp only [subRect, blockRect] at h
    exact ⟨h.2.1, h.2.2.2⟩
  have hchain := pairwise_chainRel_of_sorted _ hsorted hcompat2 hpos
  have hok : chainOK 0 0 (List.insertionSort blockLe
      (processQueue a b (chainB b) [(0, a.length, 0, b.length)] [])) :=
    chainOK_of_pairwise _ 0 0 hchain (fun m _ => ⟨Nat.zero_le _, Nat.zero_le _⟩)
  have hfull := collapseLoop_chain a.length b.length
    (List.insertionSort blockLe
      (processQueue a b (chainB b) [(0, a.length, 0, b.length)] []))
    0 0 0 hok hbounds (Nat.zero_le _) (Nat.zero_le _)
  have hgmb : get_matching_blocks a b = collapseLoop 0 0 0
      (List.insertionSort blockLe
        (processQueue a b (chainB b) [(0, a.length, 0, b.length)] [])) ++
      [⟨a.length, b.length, 0⟩] := rfl
  refine ⟨?_, ?_, ?_⟩
  · rw [hgmb]
    exact hfull
  · rw [hgmb, chainEndA_append]
    rfl
  · rw [hgmb, chainEndB_append]
    rfl

/-- The non-`insert` opcodes of `get_opcodes` tile any list of `a`'s length
on the A side. -/
theorem get_opcodes_coverA {α : Type} (a b : List ℤ) (A : List α)
    (hlen : A.length = a.length) :
    (((get_opcodes a b).filter fun op => op.tag != "insert").flatMap
      fun op => pyslice A op.i1 op.i2) = A := by
  obtain ⟨hok, hendA, _⟩ := gmb_chainOK a b
  rw [get_opcodes,
    opcodesLoop_coverA A (get_matching_blocks a b) 0 0 hok
      (by rw [hendA]; exact le_of_eq hlen.symm),
    hendA, pyslice, ← hlen, List.take_length, List.drop_zero]

/-- The non-`delete` opcodes of `get_opcodes` tile any list of `b`'s length
on the B side. -/
theorem get_opcodes_coverB {α : Type} (a b : List ℤ) (B : List α)
    (hlen : B.length = b.length) :
    (((get_opcodes a b).filter fun op => op.tag != "delete").flatMap
      fun op => pyslice B op.j1 op.j2) = B := by
  obtain ⟨hok, _, hendB⟩ := gmb_chainOK a b
  rw [get_opcodes,
    opcodesLoop_coverB B (get_matching_blocks a b) 0 0 hok
      (by rw [hendB]; exact le_of_eq hlen.symm),
    hendB, pyslice, ← hlen, List.take_length, List.drop_zero]

/-- C4: for every pair of particle lists A and B, the opcode sequence
produced in `fill` by `difflib.SequenceMatcher(a=A, b=B).get_opcodes()`
covers both lists exactly: concatenating, in opcode order, the A-side spans
`A[i1:i2]` of the opcodes that are not `insert` (i.e. `equal`, `delete` and
`replace`) reconstructs A, and concatenating the B-side spans `B[j1:j2]` of
the opcodes that are not `delete` (i.e. `equal`, `insert` and `replace`)
reconstructs B; matching is by id, as Particle.__eq__ compares ids only. -/
theorem claim_C4 (A B : List Particle) :
    (((get_opcodes (A.map Particle.id) (B.map Particle.id)).filter
        fun op => op.tag != "insert").flatMap fun op => pyslice A op.i1 op.i2) = A ∧
    (((get_opcodes (A.map Particle.id) (B.map Particle.id)).filter
        fun op => op.tag != "delete").flatMap fun op => pyslice B op.j1 op.j2) = B :=
  ⟨get_opcodes_coverA (A.map Particle.id) (B.map Particle.id) A
      (List.length_map A Particle.id).symm,
    get_opcodes_coverB (A.map Particle.id) (B.map Particle.id) B
      (List.length_map B Particle.id).symm⟩

/-! ### C5: the DP of `find_longest_match` is exact when autojunk is idle -/

theorem b2jGet_insert (m : List (ℤ × List ℕ)) (y : ℤ) (j : ℕ) (x : ℤ) :
    b2jGet (b2jInsert m y j) x = b2jGet m x ++ (if y == x then [j] else []) := by
  by_cases hxy : y = x
  · subst hxy
    rw [b2jInsert]
    by_cases hfound : m.any (fun kv => kv.1 == y) = true
    · rw [if_pos hfound, b2jGet, b2jGet, List.find?_map]
      have hcomp : ((fun kv : ℤ × List ℕ => kv.1 == y) ∘
          (fun kv : ℤ × List ℕ => if kv.1 == y then (kv.1, kv.2 ++ [j]) else kv)) =
          (fun kv : ℤ × List ℕ => kv.1 == y) := by
        funext kv
        by_cases h : kv.1 == y <;> simp [Function.comp, h]
      rw [hcomp]
      obtain ⟨kv, hkv, hp⟩ := List.any_eq_true.mp hfound
      have hsome : (m.find? (fun kv => kv.1 == y)).isSome :=
        List.find?_isSome.mpr ⟨kv, hkv, hp⟩
      obtain ⟨kv0, hkv0⟩ := Option.isSome_iff_exists.mp hsome
      have hp0 := List.find?_some hkv0
      have hk0y : kv0.1 = y := by simpa using hp0
      rw [hkv0]
      simp [hk0y]
    · rw [if_neg hfound, b2jGet, b2jGet, List.find?_append]
      have hnone : m.find? (fun kv => kv.1 == y) = none :=
        List.find?_eq_none.mpr (fun kv hkv hkvx =>
          hfound (List.any_eq_true.mpr ⟨kv, hkv, hkvx⟩))
      rw [hnone]
      simp
  · rw [b2jInsert]
    have hyx : (y == x) = false := by simp [hxy]
    by_cases hfound : m.any (fun kv => kv.1 == y) = true
    · rw [if_pos hfound, b2jGet, b2jGet, List.find?_map]
      have hcomp : ((fun kv : ℤ × List ℕ => kv.1 == x) ∘
          (fun kv : ℤ × List ℕ => if kv.1 == y then (kv.1, kv.2 ++ [j]) else kv)) =
          (fun kv : ℤ × List ℕ => kv.1 == x) := by
        funext kv
        by_cases h : kv.1 == y <;> simp [Function.comp, h]
      rw [hcomp, hyx]
      cases hf : m.find? (fun kv => kv.1 == x) with
      | none => simp
      | some kv0 =>
        have hp0 := List.find?_some hf
        have hx0 : kv0.1 = x := by simpa using hp0
        have hny : ¬kv0.1 = y := by
          rw [hx0]
          exact fun h => hxy h.symm
        simp [hny]
    · rw [if_neg hfound, b2jGet, b2jGet, List.find?_append, hyx]
      simp [List.find?, hyx]

theorem b2jFoldl_get (x : ℤ) : ∀ (ps : List (ℕ × ℤ)) (m : List (ℤ × List ℕ)),
    b2jGet (ps.foldl (fun m jx => b2jInsert m jx.2 jx.1) m) x =
      b2jGet m x ++ (ps.filter (fun jx => jx.2 == x)).map Prod.fst := by
  intro ps
  induction ps with
  | nil => intro m; simp
  | cons p rest ih =>
    intro m
    rw [List.foldl_cons, ih, b2jGet_insert]
    by_cases h : (p.2 == x) = true
    · simp [List.filter_cons, h, List.append_assoc]
    · simp [List.filter_cons, h]

theorem b2jFull_get (b : List ℤ) (x : ℤ) :
    b2jGet (b2jFull b) x = (b.enum.filter (fun jx => jx.2 == x)).map Prod.fst := by
  rw [b2jFull, b2jFoldl_get]
  rfl

/-- With the full (unpurged) `b2j`, position `j` is recorded for `x` iff
`b[j] == x`: no element is excluded from matching consideration. -/
theorem b2jFull_mem (b : List ℤ) (x : ℤ) (j : ℕ) :
    j ∈ b2jGet (b2jFull b) x ↔ b[j]? = some x := by
  rw [b2jFull_get]
  constructor
  · intro hj
    obtain ⟨jx, hjx, hfst⟩ := List.mem_map.mp hj
    obtain ⟨hmem, hp⟩ := List.mem_filter.mp hjx
    have hb := List.mem_enum_iff_getElem?.mp hmem
    have hx : jx.2 = x := by simpa using hp
    rw [← hfst, hb, hx]
  · intro h
    refine List.mem_map.mpr ⟨(j, x), List.mem_filter.mpr ⟨?_, by simp⟩, rfl⟩
    exact List.mem_enum_iff_getElem?.mpr h

theorem b2jFull_sorted (b : List ℤ) (x : ℤ) :
    List.Pairwise (· < ·) (b2jGet (b2jFull b) x) := by
  rw [b2jFull_get]
  have hmap : List.Sublist ((b.enum.filter (fun jx => jx.2 == x)).map Prod.fst)
      (b.enum.map Prod.fst) := (List.filter_sublist _).map Prod.fst
  rw [List.enum_map_fst] at hmap
  exact (List.pairwise_lt_range b.length).sublist hmap

/-- On a strictly ascending list, `takeWhile (· < bhi)` is `filter`. -/
theorem takeWhile_lt_eq_filter (bhi : ℕ) :
    ∀ (l : List ℕ), List.Pairwise (· < ·) l →
      l.takeWhile (fun j => j < bhi) = l.filter (fun j => j < bhi) := by
  intro l
  induction l with
  | nil => intro _; rfl
  | cons m rest ih =>
    intro hp
    obtain ⟨hhead, hrest⟩ := List.pairwise_cons.mp hp
    by_cases h : m < bhi
    · have hd : (decide (m < bhi)) = true := by simpa using h
      rw [List.takeWhile_cons, List.filter_cons, hd]
      simp [ih hrest]
    · have hrest0 : rest.filter (fun j => decide (j < bhi)) = [] :=
        List.filter_eq_nil_iff.mpr (fun a ha => by
          have := hhead a ha
          simp only [decide_eq_true_eq]
          omega)
      have hd : (decide (m < bhi)) = false := by simpa using h
      rw [List.takeWhile_cons, List.filter_cons, hd]
      simp [hrest0]

/-- Value of the DP cell at row `i`, column `j`: the length of the longest
match of `a` against `b` that ends at `(i, j)` and stays inside the window
(rows from `alo`, columns in `[blo, bhi)`).  This is what
`find_longest_match`'s `j2len` / `newj2len` dictionaries hold. -/
def eLen (a b : List ℤ) (alo blo bhi : ℕ) : ℕ → ℕ → ℕ
  | 0, j => if blo ≤ j ∧ j < bhi ∧ (a[0]?).isSome ∧ a[0]? = b[j]? then 1 else 0
  | i + 1, j =>
    if blo ≤ j ∧ j < bhi ∧ (a[i + 1]?).isSome ∧ a[i + 1]? = b[j]? then
      (if alo ≤ i ∧ blo < j then eLen a b alo blo bhi i (j - 1) else 0) + 1
    else 0

theorem eLen_eq (a b : List ℤ) (alo blo bhi i j : ℕ) :
    eLen a b alo blo bhi i j =
      if blo ≤ j ∧ j < bhi ∧ (a[i]?).isSome ∧ a[i]? = b[j]? then
        (if alo < i ∧ blo < j then eLen a b alo blo bhi (i - 1) (j - 1) else 0) + 1
      else 0 := by
  cases i with
  | zero =>
    rw [eLen]
    by_cases h : blo ≤ j ∧ j < bhi ∧ (a[0]?).isSome ∧ a[0]? = b[j]?
    · rw [if_pos h, if_pos h, if_neg (by omega)]
    · rw [if_neg h, if_neg h]
  | succ i =>
    rw [eLen]
    by_cases h : blo ≤ j ∧ j < bhi ∧ (a[i + 1]?).isSome ∧ a[i + 1]? = b[j]?
    · rw [if_pos h, if_pos h]
      by_cases h2 : alo ≤ i ∧ blo < j
      · rw [if_pos h2, if_pos (show alo < i + 1 ∧ blo < j by omega), Nat.add_sub_cancel]
      · rw [if_neg h2, if_neg (show ¬(alo < i + 1 ∧ blo < j) by omega)]
    · rw [if_neg h, if_neg h]

theorem eLen_out (a b : List ℤ) (alo blo bhi i j : ℕ)
    (h : ¬(blo ≤ j ∧ j < bhi ∧ (a[i]?).isSome ∧ a[i]? = b[j]?)) :
    eLen a b alo blo bhi i j = 0 := by
  rw [eLen_eq, if_neg h]

theorem eLen_bounds (a b : List ℤ) (alo blo bhi : ℕ) :
    ∀ i j, alo ≤ i → 0 < eLen a b alo blo bhi i j →
      alo + eLen a b alo blo bhi i j ≤ i + 1 ∧
      blo + eLen a b alo blo bhi i j ≤ j + 1 := by
  intro i
  induction i with
  | zero =>
    intro j halo hpos
    rw [eLen] at hpos ⊢
    by_cases h : blo ≤ j ∧ j < bhi ∧ (a[0]?).isSome ∧ a[0]? = b[j]?
    · rw [if_pos h] at hpos ⊢
      obtain ⟨h1, -⟩ := h
      omega
    · rw [if_neg h] at hpos
      omega
  | succ i ih =>
    intro j halo hpos
    rw [eLen] at hpos ⊢
    by_cases h : blo ≤ j ∧ j < bhi ∧ (a[i + 1]?).isSome ∧ a[i + 1]? = b[j]?
    · rw [if_pos h] at hpos ⊢
      obtain ⟨h1, -⟩ := h
      by_cases h2 : alo ≤ i ∧ blo < j
      · rw [if_pos h2] at hpos ⊢
        by_cases h3 : 0 < eLen a b alo blo bhi i (j - 1)
        · have := ih (j - 1) h2.1 h3
          omega
        · omega
      · rw [if_neg h2] at hpos ⊢
        omega
    · rw [if_neg h] at hpos
      omega

theorem eLen_matchIn (a b : List ℤ) (alo blo bhi : ℕ) :
    ∀ i j, alo ≤ i → 0 < eLen a b alo blo bhi i j →
      matchIn a b alo (i + 1) blo (j + 1)
        (i + 1 - eLen a b alo blo bhi i j) (j + 1 - eLen a b alo blo bhi i j)
        (eLen a b alo blo bhi i j) := by
  intro i
  induction i with
  | zero =>
    intro j halo hpos
    by_cases h : blo ≤ j ∧ j < bhi ∧ (a[0]?).isSome ∧ a[0]? = b[j]?
    · have he : eLen a b alo blo bhi 0 j = 1 := by rw [eLen, if_pos h]
      rw [he]
      obtain ⟨h1, h2, h3, h4⟩ := h
      refine ⟨by omega, by omega, by omega, by omega, ?_⟩
      intro t ht
      have ht0 : t = 0 := by omega
      subst ht0
      have hidx1 : 0 + 1 - 1 + 0 = 0 := by omega
      have hidx2 : j + 1 - 1 + 0 = j := by omega
      rw [hidx1, hidx2]
      exact ⟨h4, h3⟩
    · rw [eLen_out a b alo blo bhi 0 j h] at hpos
      omega
  | succ i ih =>
    intro j halo hpos
    by_cases h : blo ≤ j ∧ j < bhi ∧ (a[i + 1]?).isSome ∧ a[i + 1]? = b[j]?
    · by_cases h2 : alo ≤ i ∧ blo < j
      · by_cases h3 : 0 < eLen a b alo blo bhi i (j - 1)
        · have hrec := ih (j - 1) h2.1 h3
          have hb := eLen_bounds a b alo blo bhi i (j - 1) h2.1 h3
          have he : eLen a b alo blo bhi (i + 1) j =
              eLen a b alo blo bhi i (j - 1) + 1 := by
            rw [eLen, if_pos h, if_pos h2]
          rw [he]
          obtain ⟨hr1, hr2, hr3, hr4, hr5⟩ := hrec
          refine ⟨by omega, by omega, by omega, by omega, ?_⟩
          intro t ht
          by_cases htlt : t < eLen a b alo blo bhi i (j - 1)
          · have hstep := hr5 t htlt
            have hidx1 : i + 1 + 1 - (eLen a b alo blo bhi i (j - 1) + 1) + t =
                i + 1 - eLen a b alo blo bhi i (j - 1) + t := by omega
            have hidx2 : j + 1 - (eLen a b alo blo bhi i (j - 1) + 1) + t =
                j - 1 + 1 - eLen a b alo blo bhi i (j - 1) + t := by omega
            rw [hidx1, hidx2]
            exact hstep
          · have ht1 : t = eLen a b alo blo bhi i (j - 1) := by omega
            subst ht1
            have hidx1 : i + 1 + 1 - (eLen a b alo blo bhi i (j - 1) + 1) +
                eLen a b alo blo bhi i (j - 1) = i + 1 := by omega
            have hidx2 : j + 1 - (eLen a b alo blo bhi i (j - 1) + 1) +
                eLen a b alo blo bhi i (j - 1) = j := by omega
            rw [hidx1, hidx2]
            exact ⟨h.2.2.2, h.2.2.1⟩
        · have he : eLen a b alo blo bhi (i + 1) j = 1 := by
            rw [eLen, if_pos h, if_pos h2]
            omega
          rw [he]
          obtain ⟨h1, hb2, h3, h4⟩ := h
          refine ⟨by omega, by omega, by omega, by omega, ?_⟩
          intro t ht
          have ht0 : t = 0 := by omega
          subst ht0
          have hidx1 : i + 1 + 1 - 1 + 0 = i + 1 := by omega
          have hidx2 : j + 1 - 1 + 0 = j := by omega
          rw [hidx1, hidx2]
          exact ⟨h4, h3⟩
      · have he : eLen a b alo blo bhi (i + 1) j = 1 := by
          rw [eLen, if_pos h, if_neg h2]
        rw [he]
        obtain ⟨h1, hb2, h3, h4⟩ := h
        refine ⟨by omega, by omega, by omega, by omega, ?_⟩
        intro t ht
        have ht0 : t = 0 := by omega
        subst ht0
        have hidx1 : i + 1 + 1 - 1 + 0 = i + 1 := by omega
        have hidx2 : j + 1 - 1 + 0 = j := by omega
        rw [hidx1, hidx2]
        exact ⟨h4, h3⟩
    · rw [eLen_out a b alo blo bhi (i + 1) j h] at hpos
      omega

theorem matchIn_le_eLen (a b : List ℤ) (alo ahi blo bhi : ℕ) :
    ∀ k i j, matchIn a b alo ahi blo bhi i j k → 0 < k →
      k ≤ eLen a b alo blo bhi (i + k - 1) (j + k - 1) := by
  intro k
  induction k with
  | zero =>
    intro i j _ h0
    omega
  | succ k ih =>
    intro i j hm hpos
    obtain ⟨h1, h2, h3, h4, h5⟩ := hm
    by_cases hk : 0 < k
    · have hm' : matchIn a b alo ahi blo bhi i j k :=
        ⟨h1, by omega, h3, by omega, fun t ht => h5 t (by omega)⟩
      have hrec := ih i j hm' hk
      have hcell := h5 k (by omega)
      have hi : i + (k + 1) - 1 = i + k := by omega
      have hj : j + (k + 1) - 1 = j + k := by omega
      rw [hi, hj, eLen_eq,
        if_pos (show blo ≤ j + k ∧ j + k < bhi ∧ (a[i + k]?).isSome ∧
          a[i + k]? = b[j + k]? from ⟨by omega, by omega, hcell.2, hcell.1⟩),
        if_pos (show alo < i + k ∧ blo < j + k by omega)]
      have hi2 : i + k - 1 = i + k - 1 := rfl
      have := hrec
      omega
    · have hk0 : k = 0 := by omega
      subst hk0
      have hcell := h5 0 (by omega)
      have hi : i + 1 - 1 = i := by omega
      have hj : j + 1 - 1 = j := by omega
      rw [hi, hj, eLen_eq,
        if_pos (show blo ≤ j ∧ j < bhi ∧ (a[i]?).isSome ∧ a[i]? = b[j]? from
          ⟨h3, by omega, by simpa using hcell.2, by simpa using hcell.1⟩)]
      omega

theorem j2lenGet_map (g : ℕ → ℕ) :
    ∀ (js : List ℕ) (j : ℕ),
      j2lenGet (js.map (fun j' => (j', g j'))) j = if j ∈ js then g j else 0 := by
  intro js
  induction js with
  | nil =>
    intro j
    simp [j2lenGet]
  | cons m rest ih =>
    intro j
    by_cases hj : m = j
    · subst hj
      simp [j2lenGet, List.find?_cons]
    · rw [List.map_cons]
      have hmj : (m == j) = false := by simp [hj]
      have hfind : List.find? (fun kv => kv.1 == j) ((m, g m) ::
          rest.map (fun j' => (j', g j'))) =
          List.find? (fun kv => kv.1 == j) (rest.map (fun j' => (j', g j'))) := by
        rw [List.find?_cons]
        simp [hmj]
      rw [j2lenGet, hfind, ← j2lenGet, ih j]
      by_cases hr : j ∈ rest
      · rw [if_pos hr, if_pos (List.mem_cons_of_mem _ hr)]
      · rw [if_neg hr,
          if_neg (fun hmem => (List.mem_cons.mp hmem).elim (fun h => hj h.symm) hr)]

/-- The best-block update step of the inner loop, as a pure fold over the
column list. -/
def bestUpd (i : ℕ) (g : ℕ → ℕ) (bst : MatchBlock) (j : ℕ) : MatchBlock :=
  if bst.size < g j then ⟨i + 1 - g j, j + 1 - g j, g j⟩ else bst

theorem innerFold_fst (j2len : List (ℕ × ℕ)) (i : ℕ) :
    ∀ (js : List ℕ) (cur : List (ℕ × ℕ)) (best : MatchBlock),
      (js.foldl (innerStep j2len i) (cur, best)).1 =
        cur ++ js.map (fun j => (j, (if j = 0 then 0 else j2lenGet j2len (j - 1)) + 1)) := by
  intro js
  induction js with
  | nil =>
    intro cur best
    simp
  | cons j rest ih =>
    intro cur best
    have hstep : innerStep j2len i (cur, best) j =
        (cur ++ [(j, (if j = 0 then 0 else j2lenGet j2len (j - 1)) + 1)],
         if best.size < (if j = 0 then 0 else j2lenGet j2len (j - 1)) + 1 then
           ⟨i + 1 - ((if j = 0 then 0 else j2lenGet j2len (j - 1)) + 1),
            j + 1 - ((if j = 0 then 0 else j2lenGet j2len (j - 1)) + 1),
            (if j = 0 then 0 else j2lenGet j2len (j - 1)) + 1⟩
         else best) := rfl
    rw [List.foldl_cons, hstep, ih, List.map_cons]
    simp [List.append_assoc]

theorem innerFold_snd (j2len : List (ℕ × ℕ)) (i : ℕ) :
    ∀ (js : List ℕ) (cur : List (ℕ × ℕ)) (best : MatchBlock),
      (js.foldl (innerStep j2len i) (cur, best)).2 =
        js.foldl (bestUpd i (fun j => (if j = 0 then 0 else j2lenGet j2len (j - 1)) + 1))
          best := by
  intro js
  induction js with
  | nil =>
    intro cur best
    rfl
  | cons j rest ih =>
    intro cur best
    rw [List.foldl_cons, List.foldl_cons, ih]
    rfl

theorem bestFold_spec (i : ℕ) (g : ℕ → ℕ) :
    ∀ (js : List ℕ) (best : MatchBlock),
      best.size ≤ (js.foldl (bestUpd i g) best).size ∧
      (∀ j ∈ js, g j ≤ (js.foldl (bestUpd i g) best).size) ∧
      ((js.foldl (bestUpd i g) best) = best ∨
        ∃ l1 j' l2, js = l1 ++ j' :: l2 ∧
          (js.foldl (bestUpd i g) best) = ⟨i + 1 - g j', j' + 1 - g j', g j'⟩ ∧
          best.size < g j' ∧ ∀ jj ∈ l1, g jj < g j') := by
  intro js
  induction js with
  | nil =>
    intro best
    exact ⟨le_refl _, by simp, Or.inl rfl⟩
  | cons j rest ih =>
    intro best
    rw [List.foldl_cons]
    by_cases hupd : best.size < g j
    · have hstep : bestUpd i g best j = ⟨i + 1 - g j, j + 1 - g j, g j⟩ := by
        rw [bestUpd, if_pos hupd]
      rw [hstep]
      obtain ⟨ih1, ih2, ih3⟩ := ih ⟨i + 1 - g j, j + 1 - g j, g j⟩
      have hs : (⟨i + 1 - g j, j + 1 - g j, g j⟩ : MatchBlock).size = g j := rfl
      rw [hs] at ih1
      refine ⟨by omega, ?_, ?_⟩
      · intro jj hjj
        rcases List.mem_cons.mp hjj with rfl | hmem
        · exact ih1
        · exact ih2 jj hmem
      · rcases ih3 with heq | ⟨l1, j', l2, hsplit, hres, hlt, hall⟩
        · right
          exact ⟨[], j, rest, by simp, heq, hupd, by simp⟩
        · right
          rw [hs] at hlt
          refine ⟨j :: l1, j', l2, by simp [hsplit], hres, by omega, ?_⟩
          intro jj hjj
          rcases List.mem_cons.mp hjj with rfl | hmem
          · exact hlt
          · exact hall jj hmem
    · have hstep : bestUpd i g best j = best := by rw [bestUpd, if_neg hupd]
      rw [hstep]
      obtain ⟨ih1, ih2, ih3⟩ := ih best
      refine ⟨ih1, ?_, ?_⟩
      · intro jj hjj
        rcases List.mem_cons.mp hjj with rfl | hmem
        · omega
        · exact ih2 jj hmem
      · rcases ih3 with heq | ⟨l1, j', l2, hsplit, hres, hlt, hall⟩
        · left
          exact heq
        · right
          refine ⟨j :: l1, j', l2, by simp [hsplit], hres, hlt, ?_⟩
          intro jj hjj
          rcases List.mem_cons.mp hjj with rfl | hmem
          · omega
          · exact hall jj hmem

/-- Invariant of `find_longest_match`'s row loop after `n` rows: the
dictionary holds the DP values of the last processed row, and the running
best block is the scan-first maximal match ending in the processed rows. -/
def dpInv (a b : List ℤ) (alo blo bhi n : ℕ) (st : List (ℕ × ℕ) × MatchBlock) : Prop :=
  (∀ j, j2lenGet st.1 j = if n = 0 then 0 else eLen a b alo blo bhi (alo + n - 1) j) ∧
  (∀ i j, alo ≤ i → i < alo + n → blo ≤ j → j < bhi →
    eLen a b alo blo bhi i j ≤ st.2.size) ∧
  (st.2.size = 0 → st.2 = ⟨alo, blo, 0⟩) ∧
  (0 < st.2.size →
    alo ≤ st.2.a ∧ st.2.a + st.2.size ≤ alo + n ∧ blo ≤ st.2.b ∧
    st.2.b + st.2.size ≤ bhi ∧
    eLen a b alo blo bhi (st.2.a + st.2.size - 1) (st.2.b + st.2.size - 1) = st.2.size ∧
    (∀ i j, alo ≤ i → i < alo + n → blo ≤ j → j < bhi →
      (i < st.2.a + st.2.size - 1 ∨
        (i = st.2.a + st.2.size - 1 ∧ j < st.2.b + st.2.size - 1)) →
      eLen a b alo blo bhi i j < st.2.size))

theorem dpLoop_inv (a b : List ℤ) (alo blo bhi : ℕ) :
    ∀ n, dpInv a b alo blo bhi n
      ((List.range' alo n).foldl (rowStep a (b2jFull b) blo bhi)
        ([], ⟨alo, blo, 0⟩)) := by
  intro n
  induction n with
  | zero =>
    refine ⟨fun j => by simp [j2lenGet], ?_, fun _ => rfl, ?_⟩
    · intro i j h1 h2 _ _
      omega
    · intro h
      exact absurd h (by simp)
  | succ n ih =>
    have hrange : List.range' alo (n + 1) = List.range' alo n ++ [alo + n] := by
      have h := @List.range'_concat 1 alo n
      rw [Nat.one_mul] at h
      exact h
    rw [hrange, List.foldl_append, List.foldl_cons, List.foldl_nil]
    set st := (List.range' alo n).foldl (rowStep a (b2jFull b) blo bhi)
      ([], (⟨alo, blo, 0⟩ : MatchBlock)) with hst
    obtain ⟨hdict, hmax, hzero, hbest⟩ := ih
    cases ha : a[alo + n]? with
    | none =>
      have hrow : rowStep a (b2jFull b) blo bhi st (alo + n) = ([], st.2) := by
        rw [rowStep, ha]
        rfl
      rw [hrow]
      simp only [dpInv]
      have hE0 : ∀ j, eLen a b alo blo bhi (alo + n) j = 0 := by
        intro j
        refine eLen_out a b alo blo bhi (alo + n) j ?_
        intro hg
        rw [ha] at hg
        exact absurd hg.2.2.1 (by simp)
      refine ⟨?_, ?_, hzero, ?_⟩
      · intro j
        rw [if_neg (by omega), show alo + (n + 1) - 1 = alo + n by omega, hE0 j]
        simp [j2lenGet]
      · intro i j hi1 hi2 hj1 hj2
        by_cases hrow2 : i < alo + n
        · exact hmax i j hi1 hrow2 hj1 hj2
        · have : i = alo + n := by omega
          subst this
          rw [hE0 j]
          omega
      · intro hpos
        obtain ⟨hb1, hb2, hb3, hb4, hb5, hb6⟩ := hbest hpos
        refine ⟨hb1, by omega, hb3, hb4, hb5, ?_⟩
        intro i j hi1 hi2 hj1 hj2 hsb
        by_cases hrow2 : i < alo + n
        · exact hb6 i j hi1 hrow2 hj1 hj2 hsb
        · exfalso
          omega
    | some x =>
      have hrow : rowStep a (b2jFull b) blo bhi st (alo + n) =
          (((b2jGet (b2jFull b) x).takeWhile (fun j => j < bhi)).filter
            (fun j => blo ≤ j)).foldl (innerStep st.1 (alo + n)) ([], st.2) := by
        rw [rowStep, ha]
      rw [hrow]
      simp only [dpInv]
      set js := ((b2jGet (b2jFull b) x).takeWhile (fun j => j < bhi)).filter
        (fun j => blo ≤ j) with hjs
      have hsor : List.Pairwise (· < ·) js := by
        rw [hjs]
        exact ((b2jFull_sorted b x).sublist (List.takeWhile_sublist _)).sublist
          (List.filter_sublist _)
      have hmem : ∀ j, j ∈ js ↔ (blo ≤ j ∧ j < bhi ∧ b[j]? = some x) := by
        intro j
        rw [hjs, takeWhile_lt_eq_filter bhi _ (b2jFull_sorted b x)]
        constructor
        · intro hj
          obtain ⟨hj1, hj2⟩ := List.mem_filter.mp hj
          obtain ⟨hj3, hj4⟩ := List.mem_filter.mp hj1
          exact ⟨by simpa using hj2, by simpa using hj4, (b2jFull_mem b x j).mp hj3⟩
        · intro h
          obtain ⟨h1, h2, h3⟩ := h
          exact List.mem_filter.mpr
            ⟨List.mem_filter.mpr ⟨(b2jFull_mem b x j).mpr h3, by simpa⟩, by simpa⟩
      have hkOf : ∀ j ∈ js, (if j = 0 then 0 else j2lenGet st.1 (j - 1)) + 1 =
          eLen a b alo blo bhi (alo + n) j := by
        intro j hj
        obtain ⟨hb1, hb2, hb3⟩ := (hmem j).mp hj
        rw [eLen_eq, if_pos (show blo ≤ j ∧ j < bhi ∧ (a[alo + n]?).isSome ∧
            a[alo + n]? = b[j]? from ⟨hb1, hb2, by rw [ha]; simp, by rw [ha, hb3]⟩)]
        by_cases hj0 : j = 0
        · subst hj0
          rw [if_pos rfl, if_neg (by omega)]
        · rw [if_neg hj0, hdict (j - 1)]
          by_cases hn0 : n = 0
          · subst hn0
            rw [if_pos rfl, if_neg (by omega)]
          · rw [if_neg hn0]
            by_cases hbj : blo < j
            · rw [if_pos (show alo < alo + n ∧ blo < j by omega)]
            · rw [if_neg (fun hc => hbj hc.2),
                eLen_out a b alo blo bhi (alo + n - 1) (j - 1)
                  (fun hc => absurd hc.1 (by omega))]
      have hfst : (js.foldl (innerStep st.1 (alo + n)) ([], st.2)).1 =
          js.map (fun j => (j, (if j = 0 then 0 else j2lenGet st.1 (j - 1)) + 1)) := by
        rw [innerFold_fst]
        rfl
      have hsnd : (js.foldl (innerStep st.1 (alo + n)) ([], st.2)).2 =
          js.foldl (bestUpd (alo + n)
            (fun j => (if j = 0 then 0 else j2lenGet st.1 (j - 1)) + 1)) st.2 :=
        innerFold_snd st.1 (alo + n) js [] st.2
      obtain ⟨hsp1, hsp2, hsp3⟩ := bestFold_spec (alo + n)
        (fun j => (if j = 0 then 0 else j2lenGet st.1 (j - 1)) + 1) js st.2
      have hEnot : ∀ j, j ∉ js → eLen a b alo blo bhi (alo + n) j = 0 := by
        intro j hj
        refine eLen_out a b alo blo bhi (alo + n) j ?_
        intro hg
        exact hj ((hmem j).mpr ⟨hg.1, hg.2.1, by rw [← hg.2.2.2, ha]⟩)
      refine ⟨?_, ?_, ?_, ?_⟩
      · intro j
        rw [hfst, if_neg (by omega), show alo + (n + 1) - 1 = alo + n by omega,
          j2lenGet_map]
        by_cases hj : j ∈ js
        · rw [if_pos hj]
          exact hkOf j hj
        · rw [if_neg hj]
          exact (hEnot j hj).symm
      · intro i j hi1 hi2 hj1 hj2
        rw [hsnd]
        by_cases hrow2 : i < alo + n
        · have h1 := hmax i j hi1 hrow2 hj1 hj2
          omega
        · have : i = alo + n := by omega
          subst this
          by_cases hj : j ∈ js
          · have h1 := hsp2 j hj
            have h2 := hkOf j hj
            omega
          · rw [hEnot j hj]
            omega
      · intro hz
        rw [hsnd] at hz ⊢
        rcases hsp3 with heq | ⟨l1, j', l2, hsplit, hres, hlt, hall⟩
        · rw [heq] at hz ⊢
          exact hzero hz
        · rw [hres] at hz
          simp only at hz
          omega
      · intro hpos
        rw [hsnd] at hpos ⊢
        rcases hsp3 with heq | ⟨l1, j', l2, hsplit, hres, hlt, hall⟩
        · rw [heq] at hpos ⊢
          obtain ⟨hb1, hb2, hb3, hb4, hb5, hb6⟩ := hbest hpos
          refine ⟨hb1, by omega, hb3, hb4, hb5, ?_⟩
          intro i j hi1 hi2 hj1 hj2 hsb
          by_cases hrow2 : i < alo + n
          · exact hb6 i j hi1 hrow2 hj1 hj2 hsb
          · exfalso
            omega
        · have hj'mem : j' ∈ js := by
            rw [hsplit]
            exact List.mem_append_right _ (List.mem_cons_self _ _)
          have hkE := hkOf j' hj'mem
          obtain ⟨hw1, hw2, hw3⟩ := (hmem j').mp hj'mem
          rw [hkE] at hres hlt
          have hEpos : 0 < eLen a b alo blo bhi (alo + n) j' := by omega
          have hbnds := eLen_bounds a b alo blo bhi (alo + n) j' (by omega) hEpos
          rw [hres]
          have hA : (⟨alo + n + 1 - eLen a b alo blo bhi (alo + n) j',
              j' + 1 - eLen a b alo blo bhi (alo + n) j',
              eLen a b alo blo bhi (alo + n) j'⟩ : MatchBlock).a =
              alo + n + 1 - eLen a b alo blo bhi (alo + n) j' := rfl
          have hB : (⟨alo + n + 1 - eLen a b alo blo bhi (alo + n) j',
              j' + 1 - eLen a b alo blo bhi (alo + n) j',
              eLen a b alo blo bhi (alo + n) j'⟩ : MatchBlock).b =
              j' + 1 - eLen a b alo blo bhi (alo + n) j' := rfl
          have hS : (⟨alo + n + 1 - eLen a b alo blo bhi (alo + n) j',
              j' + 1 - eLen a b alo blo bhi (alo + n) j',
              eLen a b alo blo bhi (alo + n) j'⟩ : MatchBlock).size =
              eLen a b alo blo bhi (alo + n) j' := rfl
          rw [hA, hB, hS]
          have he1 : alo + n + 1 - eLen a b alo blo bhi (alo + n) j' +
              eLen a b alo blo bhi (alo + n) j' - 1 = alo + n := by omega
          have he2 : j' + 1 - eLen a b alo blo bhi (alo + n) j' +
              eLen a b alo blo bhi (alo + n) j' - 1 = j' := by omega
          rw [he1, he2]
          have hl2 : ∀ y ∈ l2, j' < y := by
            have hs := hsor
            rw [hsplit] at hs
            exact (List.pairwise_cons.mp (List.pairwise_append.mp hs).2.1).1
          refine ⟨by omega, by omega, by omega, by omega, rfl, ?_⟩
          intro i j hi1 hi2 hj1 hj2 hsb
          rcases hsb with hlt2 | ⟨hieq, hjlt⟩
          · have h1 := hmax i j hi1 (by omega) hj1 hj2
            omega
          · subst hieq
            by_cases hj : j ∈ js
            · have hjsplit : j ∈ l1 := by
                have := hj
                rw [hsplit] at this
                rcases List.mem_append.mp this with h1 | h2
                · exact h1
                · rcases List.mem_cons.mp h2 with rfl | h3
                  · omega
                  · exact absurd (hl2 j h3) (by omega)
              have h1 := hall j hjsplit
              have h2 := hkOf j hj
              omega
            · rw [hEnot j hj]
              omega

theorem dpLoop_spec (a b : List ℤ) (alo ahi blo bhi : ℕ)
    (hA : alo ≤ ahi) (hB : blo ≤ bhi) :
    matchIn a b alo ahi blo bhi (dpLoop a (b2jFull b) alo ahi blo bhi).a
      (dpLoop a (b2jFull b) alo ahi blo bhi).b
      (dpLoop a (b2jFull b) alo ahi blo bhi).size ∧
    (∀ i j k, matchIn a b alo ahi blo bhi i j k →
      k ≤ (dpLoop a (b2jFull b) alo ahi blo bhi).size) ∧
    (∀ i j k, matchIn a b alo ahi blo bhi i j k →
      k = (dpLoop a (b2jFull b) alo ahi blo bhi).size →
      (dpLoop a (b2jFull b) alo ahi blo bhi).a < i ∨
        ((dpLoop a (b2jFull b) alo ahi blo bhi).a = i ∧
         (dpLoop a (b2jFull b) alo ahi blo bhi).b ≤ j)) := by
  obtain ⟨hdict, hmax, hzero, hbest⟩ := dpLoop_inv a b alo blo bhi (ahi - alo)
  have hn : alo + (ahi - alo) = ahi := by omega
  rw [hn] at hmax hbest
  have hd : dpLoop a (b2jFull b) alo ahi blo bhi =
      ((List.range' alo (ahi - alo)).foldl (rowStep a (b2jFull b) blo bhi)
        ([], ⟨alo, blo, 0⟩)).2 := rfl
  rw [hd]
  set st := (List.range' alo (ahi - alo)).foldl (rowStep a (b2jFull b) blo bhi)
    ([], (⟨alo, blo, 0⟩ : MatchBlock)) with hst
  refine ⟨?_, ?_, ?_⟩
  · by_cases hz : st.2.size = 0
    · rw [hzero hz]
      refine ⟨le_refl _, ?_, le_refl _, ?_, ?_⟩
      · show alo + 0 ≤ ahi
        omega
      · show blo + 0 ≤ bhi
        omega
      · intro t ht
        exact absurd ht (show ¬t < 0 by omega)
    · obtain ⟨hb1, hb2, hb3, hb4, hb5, hb6⟩ := hbest (by omega)
      have hEpos : 0 < eLen a b alo blo bhi (st.2.a + st.2.size - 1)
          (st.2.b + st.2.size - 1) := by omega
      have hm := eLen_matchIn a b alo blo bhi (st.2.a + st.2.size - 1)
        (st.2.b + st.2.size - 1) (by omega) hEpos
      rw [hb5] at hm
      have hx1 : st.2.a + st.2.size - 1 + 1 - st.2.size = st.2.a := by omega
      have hx2 : st.2.b + st.2.size - 1 + 1 - st.2.size = st.2.b := by omega
      rw [hx1, hx2] at hm
      obtain ⟨hm1, hm2, hm3, hm4, hm5⟩ := hm
      exact ⟨hm1, by omega, hm3, by omega, hm5⟩
  · intro i j k hm
    by_cases hk : 0 < k
    · obtain ⟨hm1, hm2, hm3, hm4, hm5⟩ := hm
      have hle := matchIn_le_eLen a b alo ahi blo bhi k i j
        ⟨hm1, hm2, hm3, hm4, hm5⟩ hk
      have hmx := hmax (i + k - 1) (j + k - 1) (by omega) (by omega)
        (by omega) (by omega)
      omega
    · omega
  · intro i j k hm hksize
    by_cases hk : 0 < k
    · have hle := matchIn_le_eLen a b alo ahi blo bhi k i j hm hk
      obtain ⟨hm1, hm2, hm3, hm4, hm5⟩ := hm
      obtain ⟨hb1, hb2, hb3, hb4, hb5, hb6⟩ := hbest (by omega)
      by_cases hsb : (i + k - 1 < st.2.a + st.2.size - 1 ∨
          (i + k - 1 = st.2.a + st.2.size - 1 ∧ j + k - 1 < st.2.b + st.2.size - 1))
      · have := hb6 (i + k - 1) (j + k - 1) (by omega) (by omega) (by omega)
          (by omega) hsb
        omega
      · omega
    · have hz : st.2.size = 0 := by omega
      rw [hzero hz]
      obtain ⟨hm1, hm2, hm3, hm4, hm5⟩ := hm
      by_cases hia : alo < i
      · left
        exact hia
      · right
        exact ⟨show alo = i by omega, show blo ≤ j by omega⟩

theorem extendLow_id (a b : List ℤ) (alo ahi blo bhi ma mb sz : ℕ)
    (hvalid : matchIn a b alo ahi blo bhi ma mb sz)
    (hmax : ∀ i j k, matchIn a b alo ahi blo bhi i j k → k ≤ sz) :
    extendLow a b alo blo ma mb sz = ⟨ma, mb, sz⟩ := by
  cases ma with
  | zero => rw [extendLow]
  | succ m =>
    rw [extendLow, if_neg]
    intro hg
    obtain ⟨hg1, hg2, hg3, hg4⟩ := hg
    obtain ⟨hv1, hv2, hv3, hv4, hv5⟩ := hvalid
    have hnew : matchIn a b alo ahi blo bhi m (mb - 1) (sz + 1) := by
      refine ⟨hg1, by omega, by omega, by omega, ?_⟩
      intro t ht
      cases t with
      | zero =>
        have e1 : m + 0 = m := by omega
        have e2 : mb - 1 + 0 = mb - 1 := by omega
        rw [e1, e2]
        exact ⟨hg4, hg3⟩
      | succ s =>
        have e1 : m + (s + 1) = m + 1 + s := by omega
        have e2 : mb - 1 + (s + 1) = mb + s := by omega
        rw [e1, e2]
        exact hv5 s (by omega)
    have := hmax m (mb - 1) (sz + 1) hnew
    omega

theorem extendHigh_id (a b : List ℤ) (alo ahi blo bhi ma mb sz : ℕ)
    (hvalid : matchIn a b alo ahi blo bhi ma mb sz)
    (hmax : ∀ i j k, matchIn a b alo ahi blo bhi i j k → k ≤ sz) :
    extendHigh a b bhi ma mb (ahi - (ma + sz)) sz = ⟨ma, mb, sz⟩ := by
  cases hrem : ahi - (ma + sz) with
  | zero => rw [extendHigh]
  | succ r =>
    rw [extendHigh, if_neg]
    intro hg
    obtain ⟨hg1, hg2, hg3⟩ := hg
    obtain ⟨hv1, hv2, hv3, hv4, hv5⟩ := hvalid
    have hnew : matchIn a b alo ahi blo bhi ma mb (sz + 1) := by
      refine ⟨hv1, by omega, hv3, by omega, ?_⟩
      intro t ht
      by_cases hts : t < sz
      · exact hv5 t hts
      · have ht0 : t = sz := by omega
        subst ht0
        exact ⟨hg3, hg2⟩
    have := hmax ma mb (sz + 1) hnew
    omega

theorem flm_spec (a b : List ℤ) (alo ahi blo bhi : ℕ)
    (hA : alo ≤ ahi) (hB : blo ≤ bhi) :
    matchIn a b alo ahi blo bhi
      (find_longest_match a b (b2jFull b) alo ahi blo bhi).a
      (find_longest_match a b (b2jFull b) alo ahi blo bhi).b
      (find_longest_match a b (b2jFull b) alo ahi blo bhi).size ∧
    (∀ i j k, matchIn a b alo ahi blo bhi i j k →
      k ≤ (find_longest_match a b (b2jFull b) alo ahi blo bhi).size) ∧
    (∀ i j k, matchIn a b alo ahi blo bhi i j k →
      k = (find_longest_match a b (b2jFull b) alo ahi blo bhi).size →
      (find_longest_match a b (b2jFull b) alo ahi blo bhi).a < i ∨
        ((find_longest_match a b (b2jFull b) alo ahi blo bhi).a = i ∧
          (find_longest_match a b (b2jFull b) alo ahi blo bhi).b ≤ j)) := by
  obtain ⟨hval, hmax, htie⟩ := dpLoop_spec a b alo ahi blo bhi hA hB
  have hlow : extendLow a b alo blo (dpLoop a (b2jFull b) alo ahi blo bhi).a
      (dpLoop a (b2jFull b) alo ahi blo bhi).b
      (dpLoop a (b2jFull b) alo ahi blo bhi).size =
      dpLoop a (b2jFull b) alo ahi blo bhi := by
    rw [extendLow_id a b alo ahi blo bhi _ _ _ hval hmax]
  have hhigh : extendHigh a b bhi (dpLoop a (b2jFull b) alo ahi blo bhi).a
      (dpLoop a (b2jFull b) alo ahi blo bhi).b
      (ahi - ((dpLoop a (b2jFull b) alo ahi blo bhi).a +
        (dpLoop a (b2jFull b) alo ahi blo bhi).size))
      (dpLoop a (b2jFull b) alo ahi blo bhi).size =
      dpLoop a (b2jFull b) alo ahi blo bhi := by
    rw [extendHigh_id a b alo ahi blo bhi _ _ _ hval hmax]
  have hflm : find_longest_match a b (b2jFull b) alo ahi blo bhi =
      dpLoop a (b2jFull b) alo ahi blo bhi := by
    show extendHigh a b bhi
      (extendLow a b alo blo (dpLoop a (b2jFull b) alo ahi blo bhi).a
        (dpLoop a (b2jFull b) alo ahi blo bhi).b
        (dpLoop a (b2jFull b) alo ahi blo bhi).size).a
      (extendLow a b alo blo (dpLoop a (b2jFull b) alo ahi blo bhi).a
        (dpLoop a (b2jFull b) alo ahi blo bhi).b
        (dpLoop a (b2jFull b) alo ahi blo bhi).size).b
      (ahi - ((extendLow a b alo blo (dpLoop a (b2jFull b) alo ahi blo bhi).a
        (dpLoop a (b2jFull b) alo ahi blo bhi).b
        (dpLoop a (b2jFull b) alo ahi blo bhi).size).a +
        (extendLow a b alo blo (dpLoop a (b2jFull b) alo ahi blo bhi).a
        (dpLoop a (b2jFull b) alo ahi blo bhi).b
        (dpLoop a (b2jFull b) alo ahi blo bhi).size).size))
      (extendLow a b alo blo (dpLoop a (b2jFull b) alo ahi blo bhi).a
        (dpLoop a (b2jFull b) alo ahi blo bhi).b
        (dpLoop a (b2jFull b) alo ahi blo bhi).size).size =
      dpLoop a (b2jFull b) alo ahi blo bhi
    rw [hlow]
    exact hhigh
  rw [hflm]
  exact ⟨hval, hmax, htie⟩

/-- `__chain_b` performs no junk/popular elimination when `len(b) < 200`. -/
theorem chainB_small (b : List ℤ) (h : b.length < 200) : chainB b = b2jFull b := by
  simp only [chainB]
  rw [if_neg (by omega)]

/-- C5 (amended): provided autojunk does not trigger (in particular whenever
`len(B) < 200`), the matcher used by `fill` is junk-free — `b2j` records
every position of every element of B, so no element of either list is
excluded from matching consideration — and at every window
`find_longest_match` (the block selector of the left-to-right
Ratcliff-Obershelp recursion) returns a matching block under id-based
equality that is of maximal size, and among the maximal blocks is the one
starting earliest in A and, at equal A-start, earliest in B.  As stated the
claim is false: with `len(B) >= 200` the autojunk heuristic drops popular
ids (see the counterexample). -/
theorem claim_C5 (a b : List ℤ) (hsmall : b.length < 200)
    (alo ahi blo bhi : ℕ) (hA : alo ≤ ahi) (hB : blo ≤ bhi) :
    (∀ x j, j ∈ b2jGet (chainB b) x ↔ b[j]? = some x) ∧
    matchIn a b alo ahi blo bhi
      (find_longest_match a b (chainB b) alo ahi blo bhi).a
      (find_longest_match a b (chainB b) alo ahi blo bhi).b
      (find_longest_match a b (chainB b) alo ahi blo bhi).size ∧
    (∀ i j k, matchIn a b alo ahi blo bhi i j k →
      k ≤ (find_longest_match a b (chainB b) alo ahi blo bhi).size) ∧
    (∀ i j k, matchIn a b alo ahi blo bhi i j k →
      k = (find_longest_match a b (chainB b) alo ahi blo bhi).size →
      (find_longest_match a b (chainB b) alo ahi blo bhi).a < i ∨
        ((find_longest_match a b (chainB b) alo ahi blo bhi).a = i ∧
          (find_longest_match a b (chainB b) alo ahi blo bhi).b ≤ j)) := by
  rw [chainB_small b hsmall]
  obtain ⟨h1, h2, h3⟩ := flm_spec a b alo ahi blo bhi hA hB
  exact ⟨fun x j => b2jFull_mem b x j, h1, h2, h3⟩

theorem claim_C5_witness :
    (([2, 3, 4] : List ℤ).length < 200 ∧ 0 ≤ 3 ∧ 0 ≤ 3) ∧
    ((∀ x j, j ∈ b2jGet (chainB [2, 3, 4]) x ↔ ([2, 3, 4] : List ℤ)[j]? = some x) ∧
    matchIn [1, 2, 3] [2, 3, 4] 0 3 0 3
      (find_longest_match [1, 2, 3] [2, 3, 4] (chainB [2, 3, 4]) 0 3 0 3).a
      (find_longest_match [1, 2, 3] [2, 3, 4] (chainB [2, 3, 4]) 0 3 0 3).b
      (find_longest_match [1, 2, 3] [2, 3, 4] (chainB [2, 3, 4]) 0 3 0 3).size ∧
    (∀ i j k, matchIn [1, 2, 3] [2, 3, 4] 0 3 0 3 i j k →
      k ≤ (find_longest_match [1, 2, 3] [2, 3, 4] (chainB [2, 3, 4]) 0 3 0 3).size) ∧
    (∀ i j k, matchIn [1, 2, 3] [2, 3, 4] 0 3 0 3 i j k →
      k = (find_longest_match [1, 2, 3] [2, 3, 4] (chainB [2, 3, 4]) 0 3 0 3).size →
      (find_longest_match [1, 2, 3] [2, 3, 4] (chainB [2, 3, 4]) 0 3 0 3).a < i ∨
        ((find_longest_match [1, 2, 3] [2, 3, 4] (chainB [2, 3, 4]) 0 3 0 3).a = i ∧
          (find_longest_match [1, 2, 3] [2, 3, 4] (chainB [2, 3, 4]) 0 3 0 3).b ≤ j))) :=
  ⟨⟨by decide, by decide, by decide⟩,
    claim_C5 [1, 2, 3] [2, 3, 4] (by decide) 0 3 0 3 (by decide) (by decide)⟩
